import Mathlib

/-!
Verification development for the vscode-llama-copilot extension.

The definitions below are a shallow embedding of the extension source:

* src/thinkingTokens.ts        — the thinking-token session store
* src/llamaClient.ts           — message conversion and the SSE stream parser
* src/provider.ts              — the chat-completion orchestrator
* the infill context builder   — byte-budget truncation and context assembly

Conventions of the embedding:

* A JavaScript string is modelled as a Lean String where only its identity
  matters (names, ids, chunk payloads), and as a list of Unicode code points
  (List Nat) where UTF-8 byte lengths and byte-level truncation matter.
* JSON.parse / JSON.stringify are external library functions; they are
  treated as parameters (parse : String → Option J, stringify : J → String)
  so every theorem quantifies over them.
* A JavaScript Map is modelled as an association list kept in insertion
  order, with Map.set replacing in place (JS Maps preserve insertion order).
* undefined / null fields are modelled with Option.
-/

namespace LlamaCopilot

/-! ## Generic helper: folding a step function that also emits output.

Used to model loops that thread state while yielding events (the SSE read
loop, the per-line processing loop, the TextDecoder byte machine). -/
def runFold {σ α β : Type} (step : σ → α → σ × List β) : σ → List α → σ × List β
  | s, [] => (s, [])
  | s, a :: as =>
    let p := step s a
    let q := runFold step p.1 as
    (q.1, p.2 ++ q.2)

/-! ## Editor message model.

vscode.LanguageModelChatMessage: a role plus an ordered list of content
parts.  Parts are text, tool-call, tool-result, or some other part type the
converters do not recognise (instanceof checks fail on it).  The type
parameter J stands for the JSON values carried in a tool call input
(JSON.parse results / JSON.stringify inputs). -/
inductive Role where
  | user
  | assistant
  | other
deriving DecidableEq, Repr

/-- Content of a LanguageModelToolResultPart: the converter only keeps its
text parts, so we model text and anything-else. -/
inductive ResultPart where
  | text (value : String)
  | other
deriving DecidableEq, Repr

inductive ChatPart (J : Type) where
  | text (value : String)
  | toolCall (callId : String) (name : String) (input : J)
  | toolResult (callId : String) (content : List ResultPart)
  | other
deriving DecidableEq

structure ChatMessage (J : Type) where
  role : Role
  content : List (ChatPart J)
deriving DecidableEq

/-- An entry of the list passed to convertVSCodeMessagesToOpenAI.  The code
guards against entries that are Error instances rather than structured
messages (`if (msg instanceof Error) throw ...`); `error` models such an
unrecognized entry. -/
inductive MessageEntry (J : Type) where
  | msg (m : ChatMessage J)
  | error
deriving DecidableEq

/-! ## Thinking-token store (src/thinkingTokens.ts). -/
/-- JS Map.get on an insertion-ordered association list. -/
def mapGet (m : List (String × String)) (k : String) : Option String :=
  (m.find? fun kv => kv.1 == k).map (·.2)

/-- JS Map.set: replace in place if the key exists, else append. -/
def mapSet : List (String × String) → String → String → List (String × String)
  | [], k, v => [(k, v)]
  | (k', v') :: rest, k, v =>
    if k' == k then (k, v) :: rest else (k', v') :: mapSet rest k v

/-- Source: hasToolCalls in thinkingTokens.ts. -/
def hasToolCalls {J : Type} (msg : ChatMessage J) : Bool :=
  msg.content.any fun p =>
    match p with
    | .toolCall _ _ _ => true
    | _ => false

/-- Source: hasToolResults in thinkingTokens.ts. -/
def hasToolResults {J : Type} (msg : ChatMessage J) : Bool :=
  msg.content.any fun p =>
    match p with
    | .toolResult _ _ => true
    | _ => false

/-- Source: isNewUserMessage in thinkingTokens.ts:
returns false on empty history, else tests the last message. -/
def isNewUserMessage {J : Type} (messages : List (ChatMessage J)) : Bool :=
  match messages.getLast? with
  | none => false
  | some last => decide (last.role = Role.user) && !hasToolResults last

/-- Source: ThinkingTokensTracker.getForMessage, the scan over content
parts.  For a tool-call part, `const value = this.tokens.get(key); if
(value) return value;` — an absent or empty (falsy) value lets the scan
continue with later parts. -/
def getForMessageLoop {J : Type} (tokens : List (String × String)) :
    List (ChatPart J) → Option String
  | [] => none
  | .toolCall callId _ _ :: rest =>
    match mapGet tokens ("toolCall_" ++ callId) with
    | some v => if v = "" then getForMessageLoop tokens rest else some v
    | none => getForMessageLoop tokens rest
  | .text _ :: rest => getForMessageLoop tokens rest
  | .toolResult _ _ :: rest => getForMessageLoop tokens rest
  | .other :: rest => getForMessageLoop tokens rest

/-- Source: ThinkingTokensTracker.getForMessage. -/
def getForMessage {J : Type} (tokens : List (String × String))
    (msg : ChatMessage J) : Option String :=
  if !hasToolCalls msg then none
  else getForMessageLoop tokens msg.content

/-- Source: provider.ts, provideLanguageModelChatResponse:
`const isNewUserMsg = isNewUserMessageCheck(messages);
 if (isNewUserMsg) { this.thinkingTokens.clear(); }`.
The store contents after this step, before the request is built. -/
def storeAfterTurnStart {J : Type} (tokens : List (String × String))
    (messages : List (ChatMessage J)) : List (String × String) :=
  if isNewUserMessage messages then [] else tokens

/-! ## OpenAI wire-format message model (src/types.ts) and the converters
(src/llamaClient.ts). -/
/-- OpenAIToolCall: `{id, type: 'function', function: {name, arguments}}`.
The type tag is the constant string 'function' at every construction site,
so it is not carried. -/
structure OpenAIToolCall where
  id : String
  name : String
  arguments : String
deriving DecidableEq

inductive WireRole where
  | system
  | user
  | assistant
  | tool
deriving DecidableEq, Repr

/-- OpenAIChatMessage.  `content : string | null` is an Option; absent
optional fields are none. -/
structure OpenAIChatMessage where
  role : WireRole
  content : Option String
  tool_calls : Option (List OpenAIToolCall) := none
  tool_call_id : Option String := none
  reasoning_content : Option String := none
deriving DecidableEq

/-- Text content of an editor message: the values of its text parts,
concatenated in order (the .filter(...).map(...).join('') in the source). -/
def textContent {J : Type} (msg : ChatMessage J) : String :=
  String.join (msg.content.filterMap fun p =>
    match p with
    | .text v => some v
    | _ => none)

/-- The tool-call parts of an editor message, in order. -/
def toolCallParts {J : Type} (msg : ChatMessage J) :
    List (String × String × J) :=
  msg.content.filterMap fun p =>
    match p with
    | .toolCall callId name input => some (callId, name, input)
    | _ => none

/-- The tool-result parts of an editor message, in order. -/
def toolResultParts {J : Type} (msg : ChatMessage J) :
    List (String × List ResultPart) :=
  msg.content.filterMap fun p =>
    match p with
    | .toolResult callId content => some (callId, content)
    | _ => none

/-- Text of a tool result: its text parts joined (the inner
.filter(...).map(...).join('') in the source). -/
def resultText (content : List ResultPart) : String :=
  String.join (content.filterMap fun p =>
    match p with
    | .text v => some v
    | .other => none)

/-- Role conversion in convertVSCodeMessagesToOpenAI: user stays user,
assistant stays assistant, anything else maps to system. -/
def convertRole (r : Role) : WireRole :=
  match r with
  | .user => WireRole.user
  | .assistant => WireRole.assistant
  | .other => WireRole.system

/-- JS `textParts || null`: an empty string is falsy and becomes null. -/
def textOrNull (s : String) : Option String :=
  if s = "" then none else some s

/-- Source: convertVSCodeMessagesToOpenAI, the body of the per-message
loop for one structured message.  stringify models JSON.stringify for
tool-call inputs; getThinkingTokens and isNewUserMessage are the optional
lookup and the new-turn flag of the source. -/
def convertOneMessage {J : Type} (stringify : J → String)
    (getThinkingTokens : Option (ChatMessage J → Option String))
    (isNewUserMsg : Bool) (m : ChatMessage J) : List OpenAIChatMessage :=
  if convertRole m.role = WireRole.assistant ∧ (toolCallParts m).isEmpty = false then
    -- assistant message with tool calls: one wire message with tool_calls;
    -- thinking tokens attach only when a lookup is supplied, the turn is
    -- not a new user message, and the lookup yields a non-empty (truthy)
    -- string
    [{ role := WireRole.assistant, content := textOrNull (textContent m),
       tool_calls := some ((toolCallParts m).map fun c =>
         { id := c.1, name := c.2.1, arguments := stringify c.2.2 }),
       reasoning_content :=
         match getThinkingTokens with
         | some f =>
           if isNewUserMsg then none
           else
             match f m with
             | some t => if t = "" then none else some t
             | none => none
         | none => none }]
  else if convertRole m.role = WireRole.user ∧ (toolResultParts m).isEmpty = false then
    -- user message with tool results: one tool message per result, then
    -- any residual text as a separate user message
    ((toolResultParts m).map fun tr =>
      ({ role := WireRole.tool, content := some (resultText tr.2),
         tool_call_id := some tr.1 } : OpenAIChatMessage)) ++
    (if textContent m = "" then []
     else [{ role := WireRole.user, content := some (textContent m) }])
  else
    [{ role := convertRole m.role, content := textOrNull (textContent m) }]

/-- Source: convertVSCodeMessagesToOpenAI.  An entry that is not a
structured message (`msg instanceof Error`) aborts the conversion with
the format error; otherwise each message contributes its wire messages. -/
def convertVSCodeMessagesToOpenAI {J : Type} (stringify : J → String)
    (getThinkingTokens : Option (ChatMessage J → Option String))
    (isNewUserMsg : Bool) :
    List (MessageEntry J) → Except String (List OpenAIChatMessage)
  | [] => Except.ok []
  | .error :: _ => Except.error "Invalid message format"
  | .msg m :: rest =>
    match convertVSCodeMessagesToOpenAI stringify getThinkingTokens isNewUserMsg rest with
    | Except.ok tail =>
      Except.ok (convertOneMessage stringify getThinkingTokens isNewUserMsg m ++ tail)
    | Except.error e => Except.error e

/-- Result record of convertOpenAIMessageToVSCode. -/
structure VSCodeConversionResult (J : Type) where
  text : String
  toolCalls : List (String × String × J)
  reasoningContent : Option String
deriving DecidableEq

/-- Source: convertOpenAIMessageToVSCode.  parse models JSON.parse of a
tool call arguments string; a call whose arguments fail to parse is
dropped (the catch with console.warn), not fatal. -/
def convertOpenAIMessageToVSCode {J : Type} (parse : String → Option J)
    (message : OpenAIChatMessage) : VSCodeConversionResult J :=
  { text := message.content.getD ""
    toolCalls :=
      match message.tool_calls with
      | none => []
      | some l => l.filterMap fun tc =>
          (parse tc.arguments).map fun input => (tc.id, tc.name, input)
    reasoningContent := message.reasoning_content }

/-! ## UTF-8 encoding and decoding.

Strings handled by the infill context builder and the stream decoder are
modelled as lists of Unicode code points (List Nat).  utf8EncodeChar is
standard UTF-8 encoding (Buffer.from(str, 'utf8')); lone surrogates are
encoded as U+FFFD, as Node does.  The byte-level decoder below is the
WHATWG Encoding Standard UTF-8 decoder used by TextDecoder and
Buffer.toString('utf8'): a byte-at-a-time state machine with replacement
on error. -/
/-- A Unicode scalar value: a code point that is not a surrogate.  A
sequence of these models a well-formed JS string. -/
def IsScalar (c : Nat) : Prop := c < 0x110000 ∧ ¬(0xD800 ≤ c ∧ c < 0xE000)

instance (c : Nat) : Decidable (IsScalar c) := by
  unfold IsScalar
  infer_instance

def ValidString (s : List Nat) : Prop := ∀ c ∈ s, IsScalar c

instance (s : List Nat) : Decidable (ValidString s) := by
  unfold ValidString
  infer_instance

/-- UTF-8 encoding of one code point (integer div/mod forms of the usual
shift-and-mask definition). -/
def utf8EncodeChar (c : Nat) : List Nat :=
  if c < 0x80 then [c]
  else if c < 0x800 then [0xC0 + c / 64, 0x80 + c % 64]
  else if c < 0x10000 then
    if 0xD800 ≤ c ∧ c < 0xE000 then [0xEF, 0xBF, 0xBD]
    else [0xE0 + c / 4096, 0x80 + c / 64 % 64, 0x80 + c % 64]
  else if c < 0x110000 then
    [0xF0 + c / 262144, 0x80 + c / 4096 % 64, 0x80 + c / 64 % 64, 0x80 + c % 64]
  else [0xEF, 0xBF, 0xBD]

def utf8Encode (s : List Nat) : List Nat := s.flatMap utf8EncodeChar

/-- Source: byteLength(str) = Buffer.byteLength(str, 'utf8'). -/
def byteLength (s : List Nat) : Nat := (utf8Encode s).length

/-- WHATWG UTF-8 decoder state. -/
structure DecState where
  codePoint : Nat
  bytesSeen : Nat
  bytesNeeded : Nat
  lowerBoundary : Nat
  upperBoundary : Nat
deriving DecidableEq

def initDecState : DecState :=
  { codePoint := 0, bytesSeen := 0, bytesNeeded := 0,
    lowerBoundary := 0x80, upperBoundary := 0xBF }

/-- One step of the WHATWG UTF-8 decoder for a byte arriving with no
multi-byte sequence in progress (bytesNeeded = 0). -/
def decodeStepInitial (b : Nat) : DecState × List Nat :=
  if b ≤ 0x7F then (initDecState, [b])
  else if 0xC2 ≤ b ∧ b ≤ 0xDF then
    ({ codePoint := b - 0xC0, bytesSeen := 0, bytesNeeded := 1,
       lowerBoundary := 0x80, upperBoundary := 0xBF }, [])
  else if 0xE0 ≤ b ∧ b ≤ 0xEF then
    ({ codePoint := b - 0xE0, bytesSeen := 0, bytesNeeded := 2,
       lowerBoundary := if b = 0xE0 then 0xA0 else 0x80,
       upperBoundary := if b = 0xED then 0x9F else 0xBF }, [])
  else if 0xF0 ≤ b ∧ b ≤ 0xF4 then
    ({ codePoint := b - 0xF0, bytesSeen := 0, bytesNeeded := 3,
       lowerBoundary := if b = 0xF0 then 0x90 else 0x80,
       upperBoundary := if b = 0xF4 then 0x8F else 0xBF }, [])
  else (initDecState, [0xFFFD])

/-- One step of the WHATWG UTF-8 decoder: on an invalid continuation byte
it emits U+FFFD and reprocesses the byte with a fresh state. -/
def decodeStep (st : DecState) (b : Nat) : DecState × List Nat :=
  if st.bytesNeeded = 0 then decodeStepInitial b
  else if st.lowerBoundary ≤ b ∧ b ≤ st.upperBoundary then
    let cp := st.codePoint * 64 + (b - 0x80)
    if st.bytesSeen + 1 = st.bytesNeeded then (initDecState, [cp])
    else ({ codePoint := cp, bytesSeen := st.bytesSeen + 1,
            bytesNeeded := st.bytesNeeded,
            lowerBoundary := 0x80, upperBoundary := 0xBF }, [])
  else
    let r := decodeStepInitial b
    (r.1, 0xFFFD :: r.2)

/-- Streaming decode of a byte chunk from a carried decoder state
(TextDecoder.decode(chunk, {stream: true})). -/
def decodeChunk (st : DecState) (bytes : List Nat) : DecState × List Nat :=
  runFold decodeStep st bytes

/-- Whole-buffer decode (Buffer.toString('utf8')): stream decode plus the
end-of-stream flush, which emits one U+FFFD if a sequence is pending. -/
def utf8DecodeFull (bytes : List Nat) : List Nat :=
  let r := decodeChunk initDecState bytes
  r.2 ++ (if r.1.bytesNeeded = 0 then [] else [0xFFFD])

/-! ## Byte-budget truncation and the infill context builder
(contextBuilder.ts). -/
/-- Test for a UTF-8 continuation byte: (b & 0xc0) === 0x80, i.e.
0x80 ≤ b < 0xC0 for byte values. -/
def isContinuationByte (b : Nat) : Bool := decide (0x80 ≤ b ∧ b < 0xC0)

/-- Source: the while loop of truncateToByteLength:
`let len = maxBytes; while (len > 0 && cont(buf[len])) len--;`. -/
def snapLen (buf : List Nat) : Nat → Nat
  | 0 => 0
  | len + 1 =>
    if isContinuationByte (buf.getD (len + 1) 0) then snapLen buf len
    else len + 1

/-- Source: the while loop of truncateStartToByteLength:
`while (start < buf.length && cont(buf[start])) start++;`. -/
def snapStart (buf : List Nat) (start : Nat) : Nat :=
  if _h : start < buf.length then
    if isContinuationByte (buf.getD start 0) then snapStart buf (start + 1)
    else start
  else start
termination_by buf.length - start

/-- Source: truncateToByteLength — truncate to at most maxBytes UTF-8
bytes from the end, snapping down to a character boundary, then decode
the kept bytes back to a string. -/
def truncateToByteLength (s : List Nat) (maxBytes : Int) : List Nat :=
  if maxBytes ≤ 0 then []
  else
    let buf := utf8Encode s
    if (buf.length : Int) ≤ maxBytes then s
    else utf8DecodeFull (buf.take (snapLen buf maxBytes.toNat))

/-- Source: truncateStartToByteLength — truncate to at most maxBytes
UTF-8 bytes from the start (keeping the tail). -/
def truncateStartToByteLength (s : List Nat) (maxBytes : Int) : List Nat :=
  if maxBytes ≤ 0 then []
  else
    let buf := utf8Encode s
    if (buf.length : Int) ≤ maxBytes then s
    else utf8DecodeFull (buf.drop (snapStart buf (buf.length - maxBytes.toNat)))

def MIN_SUFFIX_BYTES : Nat := 4096

structure InfillContextResult where
  inputPrefix : List Nat
  inputSuffix : List Nat
  inputExtra : List (String × List Nat)
deriving DecidableEq

/-- Source: the input_extra loop of buildInfillContext: files are taken
in order while budget remains; the first file that does not fit whole is
truncated to the remaining budget (kept only if non-empty) and the loop
stops there. -/
def buildInputExtra : Int → List (String × List Nat) → List (String × List Nat)
  | _, [] => []
  | budget, (filename, text) :: rest =>
    if budget ≤ 0 then []
    else if (byteLength text : Int) ≤ budget then
      (filename, text) :: buildInputExtra (budget - byteLength text) rest
    else
      let truncated := truncateToByteLength text budget
      if truncated.length > 0 then [(filename, truncated)] else []

/-- Source: buildInfillContext.  The document text is split at the cursor
offset; if prefix+suffix exceed the byte budget the suffix is truncated
first (to at least MIN_SUFFIX_BYTES), then the prefix from the start if
still over; leftover budget goes to other files. -/
def buildInfillContext (fullText : List Nat) (offset : Nat)
    (maxInputBytes : Int) (otherFiles : List (String × List Nat)) :
    InfillContextResult :=
  let prefix0 := fullText.take offset
  let suffix0 := fullText.drop offset
  let prefixBytes0 : Int := byteLength prefix0
  let suffixBytes0 : Int := byteLength suffix0
  let over : Bool := decide (prefixBytes0 + suffixBytes0 > maxInputBytes)
  let suffixPart :=
    if over then
      truncateToByteLength suffix0
        (max (MIN_SUFFIX_BYTES : Int) (maxInputBytes - prefixBytes0))
    else suffix0
  let suffixBytes : Int := byteLength suffixPart
  let prefixPart :=
    if over ∧ prefixBytes0 + suffixBytes > maxInputBytes then
      truncateStartToByteLength prefix0 (maxInputBytes - suffixBytes)
    else prefix0
  let prefixBytes : Int := byteLength prefixPart
  { inputPrefix := prefixPart
    inputSuffix := suffixPart
    inputExtra :=
      buildInputExtra (maxInputBytes - prefixBytes - suffixBytes) otherFiles }

/-! ## Streaming response parser (streamChatCompletion in llamaClient.ts).

The SSE byte stream arrives in chunks (List Nat of bytes).  Each chunk is
decoded with the carried TextDecoder state, appended to the line buffer,
split on newline (keeping the trailing fragment), and each complete line
is processed.  JSON.parse of a data line is modelled by the parameter
parseChunk (none = parse failure, line skipped); JSON.parse of an
accumulated arguments string by parseJson. -/
/-- The function part of a streaming tool-call delta. -/
structure FunctionDelta where
  name : Option String
  arguments : Option String
deriving DecidableEq

/-- One entry of delta.tool_calls in a streamed chunk (src/types.ts). -/
structure ToolCallDelta where
  index : Nat
  id : Option String
  type : Option String
  function : Option FunctionDelta
deriving DecidableEq

/-- choices[0].delta of a streamed chunk. -/
structure ChunkDelta where
  content : Option String
  reasoning_content : Option String
  tool_calls : Option (List ToolCallDelta)
deriving DecidableEq

structure ChunkChoice where
  delta : Option ChunkDelta
  finish_reason : Option String
deriving DecidableEq

/-- A parsed OpenAIChatCompletionChunk; an absent choices field behaves
exactly like an empty list (both are skipped), so it is not distinguished. -/
structure ChunkData where
  choices : List ChunkChoice
deriving DecidableEq

/-- The function part of StreamToolCallDeltaAccumulator (src/types.ts). -/
structure FunctionAcc where
  name : Option String := none
  arguments : Option String := none
deriving DecidableEq

/-- StreamToolCallDeltaAccumulator (src/types.ts): all fields optional,
created empty on first sight of a stream index. -/
structure StreamToolCallDeltaAccumulator where
  id : Option String := none
  type : Option String := none
  function : Option FunctionAcc := none
deriving DecidableEq

/-- The typed response events of streamChatCompletion. -/
inductive StreamEvent (J : Type) where
  | text (content : String)
  | toolCall (callId : String) (name : String) (input : J)
  | thinking (content : String)
deriving DecidableEq

/-- Source: the delta.function handling — name is replaced, arguments is
appended to the existing string (concatenation, never replacement). -/
def applyFunctionDelta (facc : FunctionAcc) (fd : FunctionDelta) : FunctionAcc :=
  { name := match fd.name with | some n => some n | none => facc.name
    arguments :=
      match fd.arguments with
      | some a => some (facc.arguments.getD "" ++ a)
      | none => facc.arguments }

/-- The empty object created for an unseen index or absent function. -/
def emptyFunctionAcc : FunctionAcc := { name := none, arguments := none }

def emptyAcc : StreamToolCallDeltaAccumulator :=
  { id := none, type := none, function := none }

/-- Source: the per-delta accumulator update inside the tool_calls loop:
id and type are replaced when present; function fields are merged. -/
def applyDeltaToAcc (acc : StreamToolCallDeltaAccumulator)
    (d : ToolCallDelta) : StreamToolCallDeltaAccumulator :=
  let acc1 := match d.id with | some i => { acc with id := some i } | none => acc
  let acc2 := match d.type with | some t => { acc1 with type := some t } | none => acc1
  match d.function with
  | some fd => { acc2 with function := some (applyFunctionDelta (acc2.function.getD emptyFunctionAcc) fd) }
  | none => acc2

/-- Map.get on the accumulator map keyed by stream index. -/
def accListGet (accs : List (Nat × StreamToolCallDeltaAccumulator)) (i : Nat) :
    Option StreamToolCallDeltaAccumulator :=
  (accs.find? fun kv => kv.1 == i).map (·.2)

/-- Map.set on the accumulator map: replace in place, append if new. -/
def accListSet : List (Nat × StreamToolCallDeltaAccumulator) → Nat →
    StreamToolCallDeltaAccumulator → List (Nat × StreamToolCallDeltaAccumulator)
  | [], i, a => [(i, a)]
  | (k, v) :: rest, i, a =>
    if k == i then (i, a) :: rest else (k, v) :: accListSet rest i a

/-- Source: one iteration of the `for (const toolCallDelta of
delta.tool_calls)` loop: create the entry if the index is unseen (JS Map
insertion order: appended at the end), then update it. -/
def applyToolCallDelta (accs : List (Nat × StreamToolCallDeltaAccumulator))
    (d : ToolCallDelta) : List (Nat × StreamToolCallDeltaAccumulator) :=
  let accs1 := if (accListGet accs d.index).isNone then accs ++ [(d.index, emptyAcc)] else accs
  accListSet accs1 d.index (applyDeltaToAcc ((accListGet accs1 d.index).getD emptyAcc) d)

/-- Source: the flush loop at finish_reason: an entry is emitted when id,
function.name and function.arguments are all present and non-empty (JS
truthiness) and the arguments parse as JSON; otherwise it is dropped. -/
def flushAccs {J : Type} (parseJson : String → Option J)
    (accs : List (Nat × StreamToolCallDeltaAccumulator)) : List (StreamEvent J) :=
  accs.filterMap fun kv =>
    match kv.2.id, kv.2.function with
    | some i, some f =>
      match f.name, f.arguments with
      | some n, some a =>
        if i = "" ∨ n = "" ∨ a = "" then none
        else
          match parseJson a with
          | some input => some (StreamEvent.toolCall i n input)
          | none => none
      | _, _ => none
    | _, _ => none

/-- Parser state carried across lines: the tool-call accumulators and
whether the generator has returned (finish_reason stop). -/
structure CoreState where
  accs : List (Nat × StreamToolCallDeltaAccumulator)
  finished : Bool
deriving DecidableEq

def initCoreState : CoreState := { accs := [], finished := false }

/-- Code points of a literal ASCII string. -/
def strCodes (s : String) : List Nat := s.data.map Char.toNat

/-- JS String.prototype.trim whitespace (the code points relevant here). -/
def isJsWhitespace (c : Nat) : Bool :=
  decide (c = 32 ∨ c = 9 ∨ c = 10 ∨ c = 11 ∨ c = 12 ∨ c = 13 ∨ c = 0xA0 ∨ c = 0xFEFF)

def trimCodes (l : List Nat) : List Nat :=
  ((l.dropWhile isJsWhitespace).reverse.dropWhile isJsWhitespace).reverse

/-- Source: `if (delta.content) yield {type: 'text', ...}` — the emitted
text event of one delta (empty string is falsy and emits nothing). -/
def deltaTextEvents {J : Type} (delta : ChunkDelta) : List (StreamEvent J) :=
  match delta.content with
  | some c => if c = "" then [] else [StreamEvent.text c]
  | none => []

/-- Source: `if (delta.reasoning_content) yield {type: 'thinking', ...}`. -/
def deltaThinkingEvents {J : Type} (delta : ChunkDelta) : List (StreamEvent J) :=
  match delta.reasoning_content with
  | some c => if c = "" then [] else [StreamEvent.thinking c]
  | none => []

/-- Source: `if (delta.tool_calls) for (const toolCallDelta of ...)` —
the accumulator map after one delta is applied. -/
def deltaAccUpdate (accs : List (Nat × StreamToolCallDeltaAccumulator))
    (delta : ChunkDelta) : List (Nat × StreamToolCallDeltaAccumulator) :=
  match delta.tool_calls with
  | some ds => ds.foldl applyToolCallDelta accs
  | none => accs

/-- Source: the body of `for (const line of lines)` in
streamChatCompletion: skip non-data lines, strip the marker, skip blank
and [DONE] payloads, parse the JSON chunk, then handle content /
reasoning_content / tool_calls of the first choice and the finish
reasons.  Once finished (stop), the generator has returned and later
lines are never processed. -/
def processLine {J : Type} (parseChunk : List Nat → Option ChunkData)
    (parseJson : String → Option J) (st : CoreState) (line : List Nat) :
    CoreState × List (StreamEvent J) :=
  if st.finished then (st, [])
  else if (strCodes "data: ").isPrefixOf line then
    let dataStr := line.drop 6
    if trimCodes dataStr = [] ∨ trimCodes dataStr = strCodes "[DONE]" then (st, [])
    else
      match parseChunk dataStr with
      | none => (st, [])
      | some chunk =>
        match chunk.choices with
        | [] => (st, [])
        | choice :: _ =>
          match choice.delta with
          | none => (st, [])
          | some delta =>
            let accs1 := deltaAccUpdate st.accs delta
            if choice.finish_reason = some "tool_calls" ∨
               choice.finish_reason = some "stop" then
              ({ accs := [], finished := decide (choice.finish_reason = some "stop") },
               deltaTextEvents delta ++ deltaThinkingEvents delta ++
                 flushAccs parseJson accs1)
            else
              ({ accs := accs1, finished := false },
               deltaTextEvents delta ++ deltaThinkingEvents delta)
  else (st, [])

/-- One step of line splitting for `buffer.split('\n')` with the final
element retained as the new buffer. -/
def splitStep (acc : List (List Nat) × List Nat) (c : Nat) :
    List (List Nat) × List Nat :=
  if c = 10 then (acc.1 ++ [acc.2], []) else (acc.1, acc.2 ++ [c])

/-- The complete lines of a text and the trailing incomplete fragment. -/
def splitLines (text : List Nat) : List (List Nat) × List Nat :=
  text.foldl splitStep ([], [])

/-- Full parser state across chunk reads: decoder state, line buffer,
accumulators/finished flag. -/
structure SSEState where
  dec : DecState
  buffer : List Nat
  core : CoreState
deriving DecidableEq

def initSSEState : SSEState := ⟨initDecState, [], initCoreState⟩

/-- Source: one iteration of the `while (true)` read loop:
`buffer += decoder.decode(value, {stream: true})`, split off complete
lines, process them.  After the generator has returned (stop) no further
chunk is read. -/
def processChunkBytes {J : Type} (parseChunk : List Nat → Option ChunkData)
    (parseJson : String → Option J) (st : SSEState) (bytes : List Nat) :
    SSEState × List (StreamEvent J) :=
  if st.core.finished then (st, [])
  else
    let d := decodeChunk st.dec bytes
    let sl := splitLines (st.buffer ++ d.2)
    let r := runFold (processLine parseChunk parseJson) st.core sl.1
    ({ dec := d.1, buffer := sl.2, core := r.1 }, r.2)

/-- The sequence of StreamEvents streamChatCompletion emits for a given
sequence of transport chunks. -/
def streamChatCompletionEvents {J : Type} (parseChunk : List Nat → Option ChunkData)
    (parseJson : String → Option J) (chunks : List (List Nat)) :
    List (StreamEvent J) :=
  (runFold (processChunkBytes parseChunk parseJson) initSSEState chunks).2

/-! ## Chat completion orchestrator (provider.ts). -/
def CURSOR_RULES_TOOL_NAME : String := "get-project-rule"

/-- A LanguageModelChatTool as far as the orchestrator inspects it: only
the name takes part in the rule-tool filtering. -/
structure ChatTool where
  name : String
deriving DecidableEq

/-- What the orchestrator reports to the progress callback. -/
inductive ReportedPart (J : Type) where
  | text (content : String)
  | toolCall (callId : String) (name : String) (input : J)
deriving DecidableEq

/-- One buffered cursor-rules tool call (the cursorRulesToolCalls array). -/
structure RuleCallRecord (J : Type) where
  call : String × String × J
  result : String
  ruleNames : List String
deriving DecidableEq

/-- Mutable state of the streaming loop in
provideLanguageModelChatResponse. -/
structure TurnState (J : Type) where
  currentThinkingTokens : String
  cursorRulesToolCalls : List (RuleCallRecord J)
  store : List (String × String)
  reported : List (ReportedPart J)
deriving DecidableEq

/-- Source: the `for await (const chunk of streamChatCompletion(...))`
body.  resolveRules models `(chunk.toolCall.input as {rule}).rule`
followed by resolveAndFormatRules (an external collaborator): ok gives
{formatted, ruleNames}, error the thrown message.  rulesActive models
`this.rulesTool && this.ruleManager`. -/
def turnStep {J : Type} (rulesActive : Bool)
    (resolveRules : J → Except String (String × List String))
    (st : TurnState J) (chunk : StreamEvent J) : TurnState J :=
  match chunk with
  | .text c => { st with reported := st.reported ++ [ReportedPart.text c] }
  | .thinking c =>
    { st with currentThinkingTokens := st.currentThinkingTokens ++ c }
  | .toolCall callId name input =>
    let st1 :=
      if name = CURSOR_RULES_TOOL_NAME ∧ rulesActive = true then
        match resolveRules input with
        | .ok fr =>
          { st with cursorRulesToolCalls :=
              st.cursorRulesToolCalls ++ [⟨(callId, name, input), fr.1, fr.2⟩] }
        | .error msg =>
          { st with cursorRulesToolCalls :=
              st.cursorRulesToolCalls ++ [⟨(callId, name, input), "Error: " ++ msg, []⟩] }
      else
        { st with reported := st.reported ++ [ReportedPart.toolCall callId name input] }
    if st1.currentThinkingTokens = "" then st1
    else
      { st1 with
        store := mapSet st1.store ("toolCall_" ++ callId) st1.currentThinkingTokens
        currentThinkingTokens := "" }

/-- JS `[...new Set(list)]`: duplicates removed, first occurrences kept
in order. -/
def dedupFirst : List String → List String
  | [] => []
  | x :: rest => x :: (dedupFirst rest).filter (fun y => !(y == x))

/-- Source: buildAssistantMessageForRules. -/
def buildAssistantMessageForRules (ruleNames : List String) : String :=
  if ruleNames.isEmpty then "Please tell me about the project rules."
  else
    let uniq := dedupFirst ruleNames
    if uniq.length = 1 then "Please tell me about rule " ++ uniq.headI ++ "."
    else
      "Please tell me about rules " ++
        String.intercalate ", " uniq.dropLast ++ ", and " ++ uniq.getLastD "" ++ "."

/-- Source: buildUserMessageWithResults — results.join with a blank line. -/
def buildUserMessageWithResults (results : List String) : String :=
  String.intercalate "\n\n" results

/-- Source: buildUpdatedMessageHistory — append the synthesized assistant
and user text messages to the original history. -/
def buildUpdatedMessageHistory {J : Type} (originalMessages : List (ChatMessage J))
    (assistantText userText : String) : List (ChatMessage J) :=
  originalMessages ++
    [⟨Role.assistant, [ChatPart.text assistantText]⟩,
     ⟨Role.user, [ChatPart.text userText]⟩]

/-- Outcome of one orchestrated turn: everything reported to the caller,
the thinking-token store afterwards, and the follow-up request (history
and tool list) if rule calls were buffered. -/
structure TurnResult (J : Type) where
  reported : List (ReportedPart J)
  store : List (String × String)
  followUp : Option (List (ChatMessage J) × List ChatTool)
deriving DecidableEq

/-- Source: provideLanguageModelChatResponse after the stream ends: if
any cursor-rules calls were buffered, synthesize the assistant and user
texts, report both, and make exactly one follow-up request with the rule
tool filtered out of the caller-supplied tools; leftover thinking tokens
go to the store under the fallback key response_ + Date.now() (the
timestamp is the parameter now). -/
def finishTurn {J : Type} (messages : List (ChatMessage J))
    (optionTools : List ChatTool) (now : String) (st : TurnState J) :
    TurnResult J :=
  let base : TurnResult J :=
    if st.cursorRulesToolCalls.isEmpty then
      { reported := st.reported, store := st.store, followUp := none }
    else
      let assistantText :=
        buildAssistantMessageForRules
          (st.cursorRulesToolCalls.flatMap (fun r => r.ruleNames))
      let userText :=
        buildUserMessageWithResults (st.cursorRulesToolCalls.map (fun r => r.result))
      { reported := st.reported ++ [ReportedPart.text assistantText,
                                    ReportedPart.text userText]
        store := st.store
        followUp := some (buildUpdatedMessageHistory messages assistantText userText,
                          optionTools.filter (fun t => !(t.name == CURSOR_RULES_TOOL_NAME))) }
  if st.currentThinkingTokens = "" then base
  else { base with
         store := mapSet base.store ("response_" ++ now) st.currentThinkingTokens }

/-- One whole orchestrated turn over the list of stream events. -/
def processTurn {J : Type} (rulesActive : Bool)
    (resolveRules : J → Except String (String × List String))
    (messages : List (ChatMessage J)) (optionTools : List ChatTool)
    (now : String) (tokens0 : List (String × String))
    (events : List (StreamEvent J)) : TurnResult J :=
  finishTurn messages optionTools now
    (events.foldl (turnStep rulesActive resolveRules)
      { currentThinkingTokens := "", cursorRulesToolCalls := []
        store := tokens0, reported := [] })

/-- Source: makeFollowUpRequest — follow-up stream events are reported
directly (text and tool calls), thinking is ignored, and no rule-call
interception or further follow-up request exists on this path. -/
def followUpReported {J : Type} (events : List (StreamEvent J)) :
    List (ReportedPart J) :=
  events.filterMap fun ev =>
    match ev with
    | .text c => some (ReportedPart.text c)
    | .toolCall callId name input => some (ReportedPart.toolCall callId name input)
    | .thinking _ => none

instance : Inhabited OpenAIChatMessage :=
  ⟨{ role := WireRole.system, content := none }⟩

/-- The concrete message of the C8 witness. -/
def exampleAssistantMessage : ChatMessage String :=
  { role := Role.assistant,
    content := [ChatPart.text "hello", ChatPart.toolCall "id1" "fn" "args"] }

/-- The concrete message of the C8 counterexample. -/
def exampleUserToolCallMessage : ChatMessage String :=
  { role := Role.user, content := [ChatPart.toolCall "c1" "f" "x"] }

/-! ## Lemmas and descriptors for the tool-call accumulator (C2). -/
/-- The accumulator map produced by a sequence of tool-call deltas,
starting empty. -/
def accRun (ds : List ToolCallDelta) : List (Nat × StreamToolCallDeltaAccumulator) :=
  ds.foldl applyToolCallDelta []

/-- The accumulated arguments string stored under a stream index. -/
def accArgsAt (accs : List (Nat × StreamToolCallDeltaAccumulator)) (i : Nat) :
    Option String :=
  (accListGet accs i).bind fun a => a.function.bind fun f => f.arguments

/-- The argument fragment carried by one delta, as a zero- or one-element
list. -/
def fragOf (d : ToolCallDelta) : List String :=
  (d.function.bind fun f => f.arguments).toList

/-- The argument fragments of the deltas addressed to index i, in arrival
order. -/
def argFragments (i : Nat) (ds : List ToolCallDelta) : List String :=
  ds.flatMap fun d => if d.index = i then fragOf d else []

/-- Appending fragments to an optional accumulated arguments string (an
absent string stays absent when no fragment arrives). -/
def combineOpt (o : Option String) (fs : List String) : Option String :=
  if fs.isEmpty then o else some (o.getD "" ++ String.join fs)

/-- The index keys of the accumulator map, in map order. -/
def accKeys (accs : List (Nat × StreamToolCallDeltaAccumulator)) : List Nat :=
  accs.map (·.1)

/-- First-occurrence (insertion) order of a key sequence. -/
def insertionOrder (l : List Nat) : List Nat :=
  l.foldl (fun ks i => if i ∈ ks then ks else ks ++ [i]) []

def isToolCallEvent {J : Type} : StreamEvent J → Bool
  | .toolCall _ _ _ => true
  | _ => false

/-- A data line whose parsed chunk carries a delta and a finishing
finish_reason. -/
def lineIsFinish (parseChunk : List Nat → Option ChunkData) (line : List Nat) :
    Prop :=
  ∃ chunk choice delta, parseChunk (line.drop 6) = some chunk ∧
    chunk.choices.head? = some choice ∧ choice.delta = some delta ∧
    (choice.finish_reason = some "tool_calls" ∨
      choice.finish_reason = some "stop")

/-- A concrete JSON parser for the C2 scenario. -/
def c2ParseJson : String → Option String :=
  fun s => if s = "\x7b\x7d" then some "OBJ" else none

/-- The concrete tool-call delta of the C2 scenario: index 0, full id,
name and arguments. -/
def c2Delta1 : ToolCallDelta :=
  { index := 0, id := some "a", type := none,
    function := some { name := some "f", arguments := some "\x7b\x7d" } }

/-- The finishing chunk of the C2 scenario: empty delta, finish_reason
stop. -/
def c2FinDelta : ChunkDelta :=
  { content := none, reasoning_content := none, tool_calls := none }

def c2FinChoice : ChunkChoice :=
  { delta := some c2FinDelta, finish_reason := some "stop" }

def c2FinChunk : ChunkData := { choices := [c2FinChoice] }

/-- A concrete chunk parser mapping the payload of the line
"data: x" to the finishing chunk. -/
def c2ParseChunk : List Nat → Option ChunkData :=
  fun l => if l = [120] then some c2FinChunk else none

/-- Equivalence of parser states: equal, or both terminated (a terminated
stream never reads again, so the decoder and line buffer are dead
state). -/
def stEquiv (s1 s2 : SSEState) : Prop :=
  s1 = s2 ∨ (s1.core.finished = true ∧ s2.core.finished = true)

/-- A chunk carrying only a text fragment, for the C1 scenario. -/
def c1ContentDelta : ChunkDelta :=
  { content := some "hi", reasoning_content := none, tool_calls := none }

def c1ContentChoice : ChunkChoice :=
  { delta := some c1ContentDelta, finish_reason := none }

def c1ContentChunk : ChunkData := { choices := [c1ContentChoice] }

/-- A concrete chunk parser for the C1 scenario: payload "y" is a text
chunk, payload "x" is a stop chunk. -/
def c1ParseChunk : List Nat → Option ChunkData :=
  fun l => if l = [121] then some c1ContentChunk else c2ParseChunk l

/-- What one stream event contributes to the parts reported during the
streaming loop. -/
def reportedOfEvent {J : Type} (rulesActive : Bool) :
    StreamEvent J → List (ReportedPart J)
  | .text c => [ReportedPart.text c]
  | .thinking _ => []
  | .toolCall callId name input =>
    if name = CURSOR_RULES_TOOL_NAME ∧ rulesActive = true then []
    else [ReportedPart.toolCall callId name input]

/-- All parts reported during the streaming loop. -/
def streamReported {J : Type} (rulesActive : Bool)
    (events : List (StreamEvent J)) : List (ReportedPart J) :=
  events.flatMap (reportedOfEvent rulesActive)

/-- What one stream event contributes to the buffered cursor-rules
calls. -/
def ruleRecordOfEvent {J : Type} (rulesActive : Bool)
    (resolveRules : J → Except String (String × List String)) :
    StreamEvent J → List (RuleCallRecord J)
  | .toolCall callId name input =>
    if name = CURSOR_RULES_TOOL_NAME ∧ rulesActive = true then
      [match resolveRules input with
       | .ok fr => ⟨(callId, name, input), fr.1, fr.2⟩
       | .error msg => ⟨(callId, name, input), "Error: " ++ msg, []⟩]
    else []
  | _ => []

/-- All cursor-rules calls buffered during the streaming loop. -/
def collectRuleRecords {J : Type} (rulesActive : Bool)
    (resolveRules : J → Except String (String × List String))
    (events : List (StreamEvent J)) : List (RuleCallRecord J) :=
  events.flatMap (ruleRecordOfEvent rulesActive resolveRules)

/-- A stream event that is a tool call on the reserved rule tool. -/
def isRuleCall {J : Type} : StreamEvent J → Bool
  | .toolCall _ name _ => name == CURSOR_RULES_TOOL_NAME
  | _ => false

/-- Concrete rule resolver for the C4 scenario: rule "style" resolves to
content "RULE CONTENT" under the name style.md. -/
def c4Resolve : String → Except String (String × List String) :=
  fun s => if s = "style" then Except.ok ("RULE CONTENT", ["style.md"])
           else Except.error "not found"

def c4Messages : List (ChatMessage String) :=
  [⟨Role.user, [ChatPart.text "fix bug"]⟩]

def c4Tools : List ChatTool := [⟨"get-project-rule"⟩, ⟨"search"⟩]

/-- The C4 scenario stream: a thinking fragment, then one rule-tool
call. -/
def c4Events : List (StreamEvent String) :=
  [StreamEvent.thinking "th",
   StreamEvent.toolCall "call9" "get-project-rule" "style"]

/-! ## Theorems. -/

theorem runFold_append {σ α β : Type} (step : σ → α → σ × List β) (s : σ)
    (l1 l2 : List α) :
    runFold step s (l1 ++ l2) =
      ((runFold step (runFold step s l1).1 l2).1,
       (runFold step s l1).2 ++ (runFold step (runFold step s l1).1 l2).2) := by
  induction l1 generalizing s with
  | nil => simp [runFold]
  | cons a as ih =>
    simp only [List.cons_append, runFold, List.append_eq]
    rw [ih]
    simp [List.append_assoc]

/-! ## Theorems for the claims. -/
/-- Helper for C9: the scan of getForMessage equals the first non-empty
stored value among the tool-call parts, taken in part order. -/
theorem getForMessageLoop_eq_head {J : Type} (tokens : List (String × String))
    (parts : List (ChatPart J)) :
    getForMessageLoop tokens parts =
      (parts.filterMap fun p =>
        match p with
        | ChatPart.toolCall callId _ _ =>
          match mapGet tokens ("toolCall_" ++ callId) with
          | some v => if v = "" then none else some v
          | none => none
        | _ => none).head? := by
  induction parts with
  | nil => simp [getForMessageLoop]
  | cons p rest ih =>
    cases p with
    | toolCall callId name input =>
      simp only [getForMessageLoop, List.filterMap_cons]
      cases hv : mapGet tokens ("toolCall_" ++ callId) with
      | none => simpa using ih
      | some v =>
        by_cases hve : v = ""
        · simp [hve, ih]
        · simp [hve]
    | text v => simpa [getForMessageLoop] using ih
    | toolResult callId content => simpa [getForMessageLoop] using ih
    | other => simpa [getForMessageLoop] using ih

/-- C9 (amended): getForMessage returns the value stored under the key of
the first tool-call part whose stored value is present and non-empty,
scanning the parts in order; it returns no value when the message has no
tool-call parts or when no tool-call part has a non-empty stored value. -/
theorem claim_C9_getForMessage {J : Type} (tokens : List (String × String))
    (msg : ChatMessage J) :
    getForMessage tokens msg =
      (msg.content.filterMap fun p =>
        match p with
        | ChatPart.toolCall callId _ _ =>
          match mapGet tokens ("toolCall_" ++ callId) with
          | some v => if v = "" then none else some v
          | none => none
        | _ => none).head? := by
  unfold getForMessage
  by_cases h : hasToolCalls msg
  · simp [h, getForMessageLoop_eq_head]
  · have : (msg.content.filterMap fun p =>
        match p with
        | ChatPart.toolCall callId _ _ =>
          match mapGet tokens ("toolCall_" ++ callId) with
          | some v => if v = "" then none else some v
          | none => none
        | _ => none) = [] := by
      rw [List.filterMap_eq_nil_iff]
      intro p hp
      cases p with
      | toolCall callId name input =>
        exfalso
        apply h
        unfold hasToolCalls
        rw [List.any_eq_true]
        exact ⟨_, hp, rfl⟩
      | text v => rfl
      | toolResult c r => rfl
      | other => rfl
    simp [h, this]

/-- C9 counterexample: with a value stored only for the second tool-call
part, getForMessage returns that value even though nothing is stored
under the key of the first tool-call part — so it does not return "the
value stored under the key derived from the first tool-call part". -/
theorem claim_C9_counterexample :
    getForMessage [("toolCall_b", "x")]
      ({ role := Role.assistant,
         content := [ChatPart.toolCall "a" "f" "i1",
                     ChatPart.toolCall "b" "g" "i2"] } : ChatMessage String) =
      some "x" ∧
    mapGet [("toolCall_b", "x")] ("toolCall_" ++ "a") = none := by
  constructor
  · rfl
  · rfl

/-- C3 (amended): the turn is classified as a new user turn (the store is
flushed) exactly when the history is non-empty and its trailing message
has role user with no tool-result part; every other history — including
the empty history and a trailing assistant message — leaves the store
untouched. -/
theorem claim_C3_turn_classification {J : Type}
    (tokens : List (String × String)) (messages : List (ChatMessage J)) :
    (isNewUserMessage messages = true ↔
      ∃ last, messages.getLast? = some last ∧ last.role = Role.user ∧
        hasToolResults last = false) ∧
    (isNewUserMessage messages = true →
      storeAfterTurnStart tokens messages = []) ∧
    (isNewUserMessage messages = false →
      storeAfterTurnStart tokens messages = tokens) := by
  refine ⟨?_, ?_, ?_⟩
  · unfold isNewUserMessage
    cases h : messages.getLast? with
    | none => simp
    | some last =>
      simp only [Bool.and_eq_true, decide_eq_true_eq, Bool.not_eq_true']
      constructor
      · rintro ⟨h1, h2⟩
        exact ⟨last, rfl, h1, h2⟩
      · rintro ⟨l, hl, h1, h2⟩
        cases hl
        exact ⟨h1, h2⟩
  · intro h
    simp [storeAfterTurnStart, h]
  · intro h
    simp [storeAfterTurnStart, h]

/-- C3 witness: a history ending in a plain user message flushes the
store. -/
theorem claim_C3_turn_classification_witness :
    storeAfterTurnStart [("k", "v")]
      [({ role := Role.user, content := [ChatPart.text "hi"] } : ChatMessage String)] =
      [] :=
  (claim_C3_turn_classification [("k", "v")]
    [{ role := Role.user, content := [ChatPart.text "hi"] }]).2.1 (by decide)

/-- C3 counterexample: the claim classifies the empty history as
NEW_TURN and requires the store to be flushed there; the code classifies
the empty history as not-new (isNewUserMessage returns false) and keeps
the store. -/
theorem claim_C3_counterexample :
    isNewUserMessage ([] : List (ChatMessage String)) = false ∧
    storeAfterTurnStart [("k", "v")] ([] : List (ChatMessage String)) =
      [("k", "v")] := by
  constructor
  · rfl
  · rfl

/-- C5: an entry of the message list that is not a recognized structured
message makes the whole conversion fail with the format error; no output
that silently drops the entry is ever produced. -/
theorem claim_C5_unrecognized_entry_fails {J : Type} (stringify : J → String)
    (getThinkingTokens : Option (ChatMessage J → Option String))
    (isNewUserMsg : Bool) (messages : List (MessageEntry J))
    (h : MessageEntry.error ∈ messages) :
    convertVSCodeMessagesToOpenAI stringify getThinkingTokens isNewUserMsg
      messages = Except.error "Invalid message format" := by
  induction messages with
  | nil => cases h
  | cons e rest ih =>
    cases e with
    | error => rfl
    | msg m =>
      have hr : MessageEntry.error ∈ rest := by
        rcases List.mem_cons.mp h with h1 | h1
        · cases h1
        · exact h1
      simp only [convertVSCodeMessagesToOpenAI, ih hr]

/-- C5 witness: a list containing an unrecognized entry fails. -/
theorem claim_C5_unrecognized_entry_fails_witness :
    convertVSCodeMessagesToOpenAI (fun s : String => s) none false
      [MessageEntry.msg { role := Role.user, content := [ChatPart.text "hi"] },
       MessageEntry.error] = Except.error "Invalid message format" :=
  claim_C5_unrecognized_entry_fails (fun s : String => s) none false _
    (by simp)

/-- Helper: JS `textParts || null` read back with `content || ''`. -/
theorem textOrNull_getD (s : String) : (textOrNull s).getD "" = s := by
  unfold textOrNull
  by_cases h : s = "" <;> simp [h]

/-- C10: when prefix and suffix fit the byte budget, buildInfillContext
returns both unchanged, so their concatenation is the whole document and
the split point is exactly the cursor offset. -/
theorem claim_C10_no_truncation (fullText : List Nat) (offset : Nat)
    (maxInputBytes : Int) (otherFiles : List (String × List Nat))
    (h : (byteLength (fullText.take offset) : Int) +
           byteLength (fullText.drop offset) ≤ maxInputBytes) :
    (buildInfillContext fullText offset maxInputBytes otherFiles).inputPrefix =
      fullText.take offset ∧
    (buildInfillContext fullText offset maxInputBytes otherFiles).inputSuffix =
      fullText.drop offset ∧
    (buildInfillContext fullText offset maxInputBytes otherFiles).inputPrefix ++
      (buildInfillContext fullText offset maxInputBytes otherFiles).inputSuffix =
      fullText := by
  have hover : decide ((byteLength (fullText.take offset) : Int) +
      byteLength (fullText.drop offset) > maxInputBytes) = false := by
    simp only [decide_eq_false_iff_not, gt_iff_lt, not_lt]
    exact h
  unfold buildInfillContext
  simp only [hover, Bool.false_eq_true, if_false, false_and]
  exact ⟨trivial, trivial, List.take_append_drop offset fullText⟩

/-- C10 witness. -/
theorem claim_C10_no_truncation_witness :
    (buildInfillContext [97, 98] 1 10 []).inputPrefix = [97] ∧
    (buildInfillContext [97, 98] 1 10 []).inputSuffix = [98] ∧
    (buildInfillContext [97, 98] 1 10 []).inputPrefix ++
      (buildInfillContext [97, 98] 1 10 []).inputSuffix = [97, 98] :=
  claim_C10_no_truncation [97, 98] 1 10 [] (by decide)

/-- Helper for C8: encoding tool-call parts to wire calls and parsing
them back is the identity when parse inverts stringify. -/
theorem wire_tool_calls_round_trip {J : Type} (stringify : J → String)
    (parse : String → Option J) (hps : ∀ v, parse (stringify v) = some v)
    (l : List (String × String × J)) :
    ((l.map fun c =>
        ({ id := c.1, name := c.2.1, arguments := stringify c.2.2 } :
          OpenAIToolCall))).filterMap
      (fun tc => (parse tc.arguments).map fun input => (tc.id, tc.name, input)) =
      l := by
  induction l with
  | nil => rfl
  | cons c rest ih => simp [ih, hps]

/-- C8 (amended): for every editor message without reasoning content
whose role is assistant, or which contains neither tool-call nor
tool-result parts, the conversion to wire format yields exactly one wire
message, and converting it back preserves the text content and every
tool-call id/name/input (assuming JSON.parse inverts JSON.stringify). -/
theorem claim_C8_round_trip {J : Type} (stringify : J → String)
    (parse : String → Option J) (hps : ∀ v, parse (stringify v) = some v)
    (m : ChatMessage J)
    (hm : m.role = Role.assistant ∨
      (toolCallParts m = [] ∧ toolResultParts m = [])) :
    convertVSCodeMessagesToOpenAI stringify none false [MessageEntry.msg m] =
      Except.ok (convertOneMessage stringify none false m) ∧
    (convertOneMessage stringify none false m).length = 1 ∧
    (convertOpenAIMessageToVSCode parse
        (convertOneMessage stringify none false m).headI).text = textContent m ∧
    (convertOpenAIMessageToVSCode parse
        (convertOneMessage stringify none false m).headI).toolCalls =
      toolCallParts m := by
  refine ⟨by simp [convertVSCodeMessagesToOpenAI], ?_⟩
  by_cases h1 : convertRole m.role = WireRole.assistant ∧
      (toolCallParts m).isEmpty = false
  · -- assistant message with tool calls
    unfold convertOneMessage
    rw [if_pos h1]
    refine ⟨rfl, ?_, ?_⟩
    · simp [convertOpenAIMessageToVSCode, List.headI, textOrNull_getD]
    · simp only [convertOpenAIMessageToVSCode, List.headI]
      simpa using wire_tool_calls_round_trip stringify parse hps (toolCallParts m)
  · have h2 : ¬(convertRole m.role = WireRole.user ∧
        (toolResultParts m).isEmpty = false) := by
      rcases hm with hrole | ⟨_, htr⟩
      · rintro ⟨hcr, _⟩
        rw [hrole] at hcr
        simp [convertRole] at hcr
      · rintro ⟨_, hcr⟩
        rw [htr] at hcr
        simp at hcr
    have htc : toolCallParts m = [] := by
      rcases hm with hrole | ⟨h', _⟩
      · by_contra hne
        exact h1 ⟨by simp [convertRole, hrole],
          by simpa [List.isEmpty_iff] using hne⟩
      · exact h'
    unfold convertOneMessage
    rw [if_neg h1, if_neg h2]
    refine ⟨rfl, ?_, ?_⟩
    · simp [convertOpenAIMessageToVSCode, List.headI, textOrNull_getD]
    · simp [convertOpenAIMessageToVSCode, List.headI, htc]

/-- C8 witness: an assistant message with text and one tool call round
trips. -/
theorem claim_C8_round_trip_witness :
    convertVSCodeMessagesToOpenAI (fun s : String => s) none false
        [MessageEntry.msg exampleAssistantMessage] =
      Except.ok (convertOneMessage (fun s : String => s) none false
        exampleAssistantMessage) ∧
    (convertOneMessage (fun s : String => s) none false
      exampleAssistantMessage).length = 1 ∧
    (convertOpenAIMessageToVSCode some
        (convertOneMessage (fun s : String => s) none false
          exampleAssistantMessage).headI).text =
      textContent exampleAssistantMessage ∧
    (convertOpenAIMessageToVSCode some
        (convertOneMessage (fun s : String => s) none false
          exampleAssistantMessage).headI).toolCalls =
      toolCallParts exampleAssistantMessage :=
  claim_C8_round_trip (fun s : String => s) some (fun _ => rfl)
    exampleAssistantMessage (Or.inl rfl)

/-- C8 counterexample: a user message containing a tool-call part loses
that part in the round trip (the converter drops tool calls on non-tool
user messages), so the claim fails for it as stated over every message. -/
theorem claim_C8_counterexample :
    toolCallParts exampleUserToolCallMessage = [("c1", "f", "x")] ∧
    convertVSCodeMessagesToOpenAI (fun s : String => s) none false
      [MessageEntry.msg exampleUserToolCallMessage] =
      Except.ok [{ role := WireRole.user, content := none }] ∧
    (convertOpenAIMessageToVSCode some
      ({ role := WireRole.user, content := none } : OpenAIChatMessage)).toolCalls =
      ([] : List (String × String × String)) := by
  refine ⟨by decide, ?_, by decide⟩
  rfl

/-! ## UTF-8 round-trip lemmas used by the truncation claims. -/
/-- Decoding the UTF-8 encoding of one scalar from the initial state
yields exactly that code point and returns to the initial state. -/
theorem utf8EncodeChar_valid_decode (c : Nat) (h : IsScalar c) :
    runFold decodeStep initDecState (utf8EncodeChar c) = (initDecState, [c]) := by
  obtain ⟨hlt, hsur⟩ := h
  unfold utf8EncodeChar
  by_cases h1 : c < 0x80
  · rw [if_pos h1]
    have e1 : c ≤ 0x7F := by omega
    simp [runFold, decodeStep, decodeStepInitial, initDecState, e1]
  · rw [if_neg h1]
    by_cases h2 : c < 0x800
    · rw [if_pos h2]
      have e1 : ¬(0xC0 + c / 64 ≤ 0x7F) := by omega
      have e2 : 0xC2 ≤ 0xC0 + c / 64 := by omega
      have e3 : 0xC0 + c / 64 ≤ 0xDF := by omega
      have e4 : 0x80 ≤ 0x80 + c % 64 := by omega
      have e5 : 0x80 + c % 64 ≤ 0xBF := by omega
      simp [runFold, decodeStep, decodeStepInitial, initDecState,
        e1, e2, e3, e4, e5]
      omega
    · rw [if_neg h2]
      by_cases h3 : c < 0x10000
      · rw [if_pos h3, if_neg hsur]
        have e1 : ¬(0xE0 + c / 4096 ≤ 0x7F) := by omega
        have e2 : ¬(0xC2 ≤ 0xE0 + c / 4096 ∧ 0xE0 + c / 4096 ≤ 0xDF) := by omega
        have e3 : 0xE0 ≤ 0xE0 + c / 4096 := by omega
        have e4 : 0xE0 + c / 4096 ≤ 0xEF := by omega
        have e7 : 0x80 ≤ 0x80 + c / 64 % 64 := by omega
        have e8 : 0x80 + c / 64 % 64 ≤ 0xBF := by omega
        have e9 : 0x80 ≤ 0x80 + c % 64 := by omega
        have e10 : 0x80 + c % 64 ≤ 0xBF := by omega
        by_cases hc1 : c < 0x1000
        · have hb1 : 0xE0 + c / 4096 = 0xE0 := by omega
          have e5 : 0xA0 ≤ 0x80 + c / 64 % 64 := by omega
          simp [runFold, decodeStep, decodeStepInitial, initDecState, hb1,
            e1, e2, e3, e4, e5, e7, e8, e9, e10]
          omega
        · by_cases hc2 : 0xD000 ≤ c ∧ c < 0xE000
          · have hb1 : 0xE0 + c / 4096 = 0xED := by omega
            have e5 : 0x80 + c / 64 % 64 ≤ 0x9F := by omega
            simp [runFold, decodeStep, decodeStepInitial, initDecState, hb1,
              e1, e2, e3, e4, e5, e7, e8, e9, e10]
            omega
          · have hb1 : ¬(0xE0 + c / 4096 = 0xE0) := by omega
            have hb2 : ¬(0xE0 + c / 4096 = 0xED) := by omega
            simp [runFold, decodeStep, decodeStepInitial, initDecState, hb1,
              hb2, e1, e2, e3, e4, e7, e8, e9, e10]
            omega
      · rw [if_neg h3, if_pos (by omega : c < 0x110000)]
        have e1 : ¬(0xF0 + c / 262144 ≤ 0x7F) := by omega
        have e2 : ¬(0xC2 ≤ 0xF0 + c / 262144 ∧ 0xF0 + c / 262144 ≤ 0xDF) := by
          omega
        have e3 : ¬(0xE0 ≤ 0xF0 + c / 262144 ∧ 0xF0 + c / 262144 ≤ 0xEF) := by
          omega
        have e4 : 0xF0 ≤ 0xF0 + c / 262144 := by omega
        have e5 : 0xF0 + c / 262144 ≤ 0xF4 := by omega
        have e7 : 0x80 ≤ 0x80 + c / 4096 % 64 := by omega
        have e8 : 0x80 + c / 4096 % 64 ≤ 0xBF := by omega
        have e9 : 0x80 ≤ 0x80 + c / 64 % 64 := by omega
        have e10 : 0x80 + c / 64 % 64 ≤ 0xBF := by omega
        have e11 : 0x80 ≤ 0x80 + c % 64 := by omega
        have e12 : 0x80 + c % 64 ≤ 0xBF := by omega
        by_cases hc1 : c < 0x40000
        · have hb1 : 0xF0 + c / 262144 = 0xF0 := by omega
          have e6 : 0x90 ≤ 0x80 + c / 4096 % 64 := by omega
          simp [runFold, decodeStep, decodeStepInitial, initDecState, hb1,
            e1, e2, e3, e4, e5, e6, e7, e8, e9, e10, e11, e12]
          omega
        · by_cases hc2 : 0x100000 ≤ c
          · have hb1 : 0xF0 + c / 262144 = 0xF4 := by omega
            have e6 : 0x80 + c / 4096 % 64 ≤ 0x8F := by omega
            simp [runFold, decodeStep, decodeStepInitial, initDecState, hb1,
              e1, e2, e3, e4, e5, e6, e7, e8, e9, e10, e11, e12]
            omega
          · have hb1 : ¬(0xF0 + c / 262144 = 0xF0) := by omega
            have hb2 : ¬(0xF0 + c / 262144 = 0xF4) := by omega
            simp [runFold, decodeStep, decodeStepInitial, initDecState, hb1,
              hb2, e1, e2, e3, e4, e5, e7, e8, e9, e10, e11, e12]
            omega

theorem validString_take (s : List Nat) (h : ValidString s) (n : Nat) :
    ValidString (s.take n) :=
  fun c hc => h c (List.mem_of_mem_take hc)

theorem validString_drop (s : List Nat) (h : ValidString s) (n : Nat) :
    ValidString (s.drop n) :=
  fun c hc => h c (List.mem_of_mem_drop hc)

theorem utf8Encode_cons (c : Nat) (rest : List Nat) :
    utf8Encode (c :: rest) = utf8EncodeChar c ++ utf8Encode rest := by
  simp [utf8Encode]

/-- Decoding the UTF-8 encoding of a valid string yields that string and
ends in the initial decoder state. -/
theorem utf8Encode_valid_decode (s : List Nat) (h : ValidString s) :
    runFold decodeStep initDecState (utf8Encode s) = (initDecState, s) := by
  induction s with
  | nil => simp [utf8Encode, runFold]
  | cons c rest ih =>
    have hc : IsScalar c := h c (by simp)
    have hrest : ValidString rest := fun x hx => h x (by simp [hx])
    rw [utf8Encode_cons, runFold_append, utf8EncodeChar_valid_decode c hc]
    simp [ih hrest]

/-- Whole-buffer decode inverts UTF-8 encoding on valid strings. -/
theorem utf8DecodeFull_encode (s : List Nat) (h : ValidString s) :
    utf8DecodeFull (utf8Encode s) = s := by
  unfold utf8DecodeFull decodeChunk
  rw [utf8Encode_valid_decode s h]
  simp [initDecState]

theorem utf8EncodeChar_length_pos (c : Nat) : 1 ≤ (utf8EncodeChar c).length := by
  unfold utf8EncodeChar
  split_ifs <;> simp

theorem utf8EncodeChar_length_le (c : Nat) : (utf8EncodeChar c).length ≤ 4 := by
  unfold utf8EncodeChar
  split_ifs <;> simp

theorem utf8EncodeChar_ne_nil (c : Nat) : utf8EncodeChar c ≠ [] := by
  have h := utf8EncodeChar_length_pos c
  intro he
  rw [he] at h
  simp at h

/-- The first byte of an encoded character is never a continuation
byte. -/
theorem utf8EncodeChar_head_not_cont (c : Nat) :
    isContinuationByte ((utf8EncodeChar c).getD 0 0) = false := by
  unfold utf8EncodeChar isContinuationByte
  split_ifs <;> simp [List.getD_cons_zero] <;> omega

/-- Every byte of an encoded character after the first is a continuation
byte. -/
theorem utf8EncodeChar_tail_cont (c : Nat) (i : Nat) (h1 : 1 ≤ i)
    (h2 : i < (utf8EncodeChar c).length) :
    isContinuationByte ((utf8EncodeChar c).getD i 0) = true := by
  unfold utf8EncodeChar at h2 ⊢
  unfold isContinuationByte
  split_ifs at h2 ⊢ <;>
    simp only [List.length_cons, List.length_nil, Nat.zero_add] at h2 <;>
    first
      | (exfalso; omega)
      | (interval_cases i <;>
          simp [List.getD_cons_zero, List.getD_cons_succ] <;> omega)

theorem snapLen_le (buf : List Nat) (p : Nat) : snapLen buf p ≤ p := by
  induction p with
  | zero => simp [snapLen]
  | succ n ih =>
    rw [snapLen]
    split_ifs with h
    · exact Nat.le_succ_of_le ih
    · exact le_refl _

/-- The while loop runs all the way to zero when every inspected byte is
a continuation byte. -/
theorem snapLen_zero_of_cont (buf : List Nat) (p : Nat)
    (h : ∀ i, 1 ≤ i → i ≤ p → isContinuationByte (buf.getD i 0) = true) :
    snapLen buf p = 0 := by
  induction p with
  | zero => rfl
  | succ n ih =>
    rw [snapLen, if_pos (h (n + 1) (by omega) (le_refl _))]
    exact ih fun i hi1 hi2 => h i hi1 (by omega)

/-- snapLen ignores a full prefix whose following block starts with a
non-continuation byte. -/
theorem snapLen_append (e buf : List Nat) (m : Nat)
    (hhead : isContinuationByte (buf.getD 0 0) = false) :
    snapLen (e ++ buf) (e.length + m) = e.length + snapLen buf m := by
  induction m with
  | zero =>
    rw [Nat.add_zero]
    cases hel : e.length with
    | zero => simp [snapLen]
    | succ k =>
      have hg : (e ++ buf).getD (k + 1) 0 = buf.getD 0 0 := by
        rw [List.getD_append_right e buf 0 (k + 1) (by omega)]
        congr 1
        omega
      conv_lhs => rw [snapLen]
      rw [hg, if_neg (by rw [hhead]; exact Bool.false_ne_true)]
      simp [snapLen]
  | succ m ih =>
    have ha : e.length + (m + 1) = (e.length + m) + 1 := by omega
    rw [ha]
    have hg : (e ++ buf).getD (e.length + m + 1) 0 = buf.getD (m + 1) 0 := by
      rw [List.getD_append_right e buf 0 (e.length + m + 1) (by omega)]
      congr 1
      omega
    conv_lhs => rw [snapLen]
    rw [hg]
    conv_rhs => rw [snapLen]
    by_cases hc : isContinuationByte (buf.getD (m + 1) 0) = true
    · rw [if_pos hc, if_pos hc, ih]
    · rw [if_neg hc, if_neg hc]
      omega

/-- Any snap position inside the encoding of a valid string cuts the
buffer at the end of the encoding of a character prefix, at most 3 bytes
below the requested position. -/
theorem snapLen_boundary (s : List Nat) (h : ValidString s) (p : Nat)
    (hp : p < (utf8Encode s).length) :
    ∃ j, snapLen (utf8Encode s) p = (utf8Encode (s.take j)).length ∧
      (utf8Encode s).take (snapLen (utf8Encode s) p) = utf8Encode (s.take j) ∧
      snapLen (utf8Encode s) p ≤ p ∧ p ≤ snapLen (utf8Encode s) p + 3 := by
  induction s generalizing p with
  | nil => simp [utf8Encode] at hp
  | cons c rest ih =>
    have hrest : ValidString rest := fun x hx => h x (by simp [hx])
    rw [utf8Encode_cons] at hp ⊢
    by_cases hpk : p < (utf8EncodeChar c).length
    · have hz : snapLen (utf8EncodeChar c ++ utf8Encode rest) p = 0 := by
        apply snapLen_zero_of_cont
        intro i hi1 hi2
        have hilt : i < (utf8EncodeChar c).length := by omega
        rw [List.getD_append _ _ _ _ hilt]
        exact utf8EncodeChar_tail_cont c i hi1 hilt
      refine ⟨0, ?_, ?_, ?_, ?_⟩
      · simpa [utf8Encode] using hz
      · rw [hz]
        simp [utf8Encode]
      · omega
      · have := utf8EncodeChar_length_le c
        omega
    · push_neg at hpk
      obtain ⟨m, rfl⟩ : ∃ m, p = (utf8EncodeChar c).length + m :=
        ⟨p - (utf8EncodeChar c).length, by omega⟩
      have hm : m < (utf8Encode rest).length := by
        rw [List.length_append] at hp
        omega
      have hhead : isContinuationByte ((utf8Encode rest).getD 0 0) = false := by
        cases rest with
        | nil => simp [utf8Encode] at hm
        | cons c2 r2 =>
          rw [utf8Encode_cons,
            List.getD_append _ _ _ _ (by have := utf8EncodeChar_length_pos c2; omega)]
          exact utf8EncodeChar_head_not_cont c2
      rw [snapLen_append _ _ _ hhead]
      obtain ⟨j, hj1, hj2, hj3, hj4⟩ := ih hrest m hm
      refine ⟨j + 1, ?_, ?_, ?_, ?_⟩
      · rw [List.take_succ_cons, utf8Encode_cons, List.length_append, hj1]
      · rw [List.take_succ_cons, utf8Encode_cons, hj1,
          ← List.length_append (utf8EncodeChar c) (utf8Encode (rest.take j))]
        rw [List.length_append, ← hj1, List.take_append, hj2]
      · omega
      · omega

/-- truncateToByteLength returns a character prefix of its input whose
byte length fits the budget; when the input is over budget the cut is
within 3 bytes of the budget. -/
theorem truncateToByteLength_spec (s : List Nat) (h : ValidString s) (n : Nat) :
    ∃ j, truncateToByteLength s (n : Int) = s.take j ∧
      byteLength (s.take j) ≤ n ∧
      (n < byteLength s → n ≤ byteLength (s.take j) + 3) := by
  unfold truncateToByteLength
  by_cases hn : (n : Int) ≤ 0
  · have hn0 : n = 0 := by omega
    subst hn0
    rw [if_pos hn]
    exact ⟨0, by simp, by simp [byteLength, utf8Encode], fun _ => by omega⟩
  · rw [if_neg hn]
    by_cases hle : ((utf8Encode s).length : Int) ≤ (n : Int)
    · rw [if_pos hle]
      refine ⟨s.length, by simp, ?_, ?_⟩
      · simp only [List.take_length]
        unfold byteLength
        omega
      · intro hcon
        unfold byteLength at hcon
        omega
    · rw [if_neg hle]
      have hplt : n < (utf8Encode s).length := by omega
      have htn : (n : Int).toNat = n := by omega
      rw [htn]
      obtain ⟨j, hj1, hj2, hj3, hj4⟩ := snapLen_boundary s h n hplt
      refine ⟨j, ?_, ?_, ?_⟩
      · rw [hj2, utf8DecodeFull_encode _ (validString_take s h j)]
      · unfold byteLength
        omega
      · intro _
        unfold byteLength
        omega

theorem snapStart_nil (start : Nat) : snapStart [] start = start := by
  unfold snapStart
  simp

/-- snapStart stops immediately at a non-continuation byte. -/
theorem snapStart_stop (buf : List Nat) (start : Nat)
    (h : buf.length = start ∨ isContinuationByte (buf.getD start 0) = false) :
    snapStart buf start = start := by
  unfold snapStart
  rcases h with h | h
  · rw [dif_neg (by omega)]
  · by_cases hlt : start < buf.length
    · rw [dif_pos hlt, if_neg (by rw [h]; exact Bool.false_ne_true)]
    · rw [dif_neg hlt]

/-- The climbing loop of snapStart reaches the next non-continuation
position k when all bytes from start up to k are continuations. -/
theorem snapStart_climb (buf : List Nat) (k : Nat)
    (hklen : k ≤ buf.length)
    (hstop : k = buf.length ∨ isContinuationByte (buf.getD k 0) = false) :
    ∀ d start, k - start = d → start ≤ k →
      (∀ i, start ≤ i → i < k → isContinuationByte (buf.getD i 0) = true) →
      snapStart buf start = k := by
  intro d
  induction d with
  | zero =>
    intro start hd hsk _
    have heq : start = k := by omega
    rw [heq]
    exact snapStart_stop buf k (hstop.imp Eq.symm id)
  | succ d ih =>
    intro start hd hsk hcont
    have hlt : start < k := by omega
    unfold snapStart
    rw [dif_pos (by omega), if_pos (hcont start (le_refl _) hlt)]
    exact ih (start + 1) (by omega) (by omega)
      (fun i hi1 hi2 => hcont i (by omega) hi2)

/-- snapStart over a block prefix reduces to snapStart of the tail. -/
theorem snapStart_append (e buf : List Nat) :
    ∀ d m, buf.length - m = d →
      snapStart (e ++ buf) (e.length + m) = e.length + snapStart buf m := by
  intro d
  induction d with
  | zero =>
    intro m hd
    have hge : buf.length ≤ m := by omega
    unfold snapStart
    rw [dif_neg (by simp [List.length_append]; omega), dif_neg (by omega)]
  | succ d ih =>
    intro m hd
    have hlt : m < buf.length := by omega
    have hg : (e ++ buf).getD (e.length + m) 0 = buf.getD m 0 := by
      rw [List.getD_append_right e buf 0 (e.length + m) (by omega)]
      congr 1
      omega
    unfold snapStart
    rw [dif_pos (by simp [List.length_append]; omega), dif_pos hlt, hg]
    by_cases hc : isContinuationByte (buf.getD m 0) = true
    · rw [if_pos hc, if_pos hc]
      have ha : e.length + m + 1 = e.length + (m + 1) := by omega
      rw [ha]
      exact ih (m + 1) (by omega)
    · rw [if_neg hc, if_neg hc]

/-- Any snap-forward position inside the encoding of a valid string lands
on a character boundary: the dropped-to suffix is the encoding of a
character suffix, within 3 bytes above the requested start. -/
theorem snapStart_boundary (s : List Nat) (h : ValidString s) (start : Nat)
    (hs : start ≤ (utf8Encode s).length) :
    ∃ j, (utf8Encode s).drop (snapStart (utf8Encode s) start) =
        utf8Encode (s.drop j) ∧
      start ≤ snapStart (utf8Encode s) start ∧
      snapStart (utf8Encode s) start ≤ start + 3 := by
  induction s generalizing start with
  | nil =>
    refine ⟨0, ?_, ?_, ?_⟩
    · rw [show utf8Encode [] = [] from rfl, snapStart_nil]
      simp [utf8Encode]
    · rw [show utf8Encode [] = [] from rfl, snapStart_nil]
    · rw [show utf8Encode [] = [] from rfl, snapStart_nil]
      omega
  | cons c rest ih =>
    have hrest : ValidString rest := fun x hx => h x (by simp [hx])
    rw [utf8Encode_cons] at hs ⊢
    have hk1 := utf8EncodeChar_length_pos c
    have hk4 := utf8EncodeChar_length_le c
    by_cases h0 : start = 0
    · subst h0
      have hz : snapStart (utf8EncodeChar c ++ utf8Encode rest) 0 = 0 := by
        apply snapStart_stop
        right
        rw [List.getD_append _ _ _ _ (by omega)]
        exact utf8EncodeChar_head_not_cont c
      refine ⟨0, ?_, by omega, by omega⟩
      rw [hz, List.drop_zero, List.drop_zero, utf8Encode_cons]
    · by_cases hkk : start < (utf8EncodeChar c).length
      · -- inside the first character: climb to its end
        have hclimb : snapStart (utf8EncodeChar c ++ utf8Encode rest) start =
            (utf8EncodeChar c).length := by
          refine snapStart_climb (utf8EncodeChar c ++ utf8Encode rest)
            (utf8EncodeChar c).length (by simp) ?_
            ((utf8EncodeChar c).length - start) start rfl (by omega) ?_
          · cases hr : rest with
            | nil =>
              left
              simp [utf8Encode]
            | cons c2 r2 =>
              right
              rw [List.getD_append_right _ _ _ _ (le_refl _), Nat.sub_self,
                utf8Encode_cons,
                List.getD_append _ _ _ _
                  (by have := utf8EncodeChar_length_pos c2; omega)]
              exact utf8EncodeChar_head_not_cont c2
          · intro i hi1 hi2
            rw [List.getD_append _ _ _ _ hi2]
            exact utf8EncodeChar_tail_cont c i (by omega) hi2
        refine ⟨1, ?_, by omega, by omega⟩
        rw [hclimb, List.drop_left, List.drop_one]
        rfl
      · -- at or past the end of the first character: shift into the tail
        push_neg at hkk
        obtain ⟨m, rfl⟩ : ∃ m, start = (utf8EncodeChar c).length + m :=
          ⟨start - (utf8EncodeChar c).length, by omega⟩
        have hm : m ≤ (utf8Encode rest).length := by
          rw [List.length_append] at hs
          omega
        rw [snapStart_append _ _ ((utf8Encode rest).length - m) m rfl]
        obtain ⟨j, hj1, hj2, hj3⟩ := ih hrest m hm
        refine ⟨j + 1, ?_, by omega, by omega⟩
        rw [List.drop_append, hj1]
        rfl

/-- truncateStartToByteLength returns a character suffix of its input
whose byte length fits the budget. -/
theorem truncateStartToByteLength_spec (s : List Nat) (h : ValidString s)
    (n : Nat) :
    ∃ j, truncateStartToByteLength s (n : Int) = s.drop j ∧
      byteLength (s.drop j) ≤ n := by
  unfold truncateStartToByteLength
  by_cases hn : (n : Int) ≤ 0
  · rw [if_pos hn]
    exact ⟨s.length, by simp, by simp [byteLength, utf8Encode]⟩
  · rw [if_neg hn]
    by_cases hle : ((utf8Encode s).length : Int) ≤ (n : Int)
    · rw [if_pos hle]
      refine ⟨0, by simp, ?_⟩
      unfold byteLength
      simp only [List.drop_zero]
      omega
    · rw [if_neg hle]
      have hplt : n < (utf8Encode s).length := by omega
      have htn : (n : Int).toNat = n := by omega
      rw [htn]
      have hstart : (utf8Encode s).length - n ≤ (utf8Encode s).length := by omega
      obtain ⟨j, hj1, hj2, hj3⟩ :=
        snapStart_boundary s h ((utf8Encode s).length - n) hstart
      refine ⟨j, ?_, ?_⟩
      · rw [hj1, utf8DecodeFull_encode _ (validString_drop s h j)]
      · unfold byteLength
        have hlen : (utf8Encode (s.drop j)).length =
            (utf8Encode s).length - snapStart (utf8Encode s)
              ((utf8Encode s).length - n) := by
          rw [← hj1, List.length_drop]
        omega

/-- C7: both byte-budget truncation functions return a string of at most
the budgeted UTF-8 byte length, and the result is valid text: encoding it
and decoding it back yields the same string (no multi-byte character is
ever split). -/
theorem claim_C7_truncation (s : List Nat) (h : ValidString s) (n : Nat) :
    byteLength (truncateToByteLength s (n : Int)) ≤ n ∧
    utf8DecodeFull (utf8Encode (truncateToByteLength s (n : Int))) =
      truncateToByteLength s (n : Int) ∧
    byteLength (truncateStartToByteLength s (n : Int)) ≤ n ∧
    utf8DecodeFull (utf8Encode (truncateStartToByteLength s (n : Int))) =
      truncateStartToByteLength s (n : Int) := by
  obtain ⟨j1, he1, hb1, _⟩ := truncateToByteLength_spec s h n
  obtain ⟨j2, he2, hb2⟩ := truncateStartToByteLength_spec s h n
  rw [he1, he2]
  exact ⟨hb1, utf8DecodeFull_encode _ (validString_take s h j1), hb2,
    utf8DecodeFull_encode _ (validString_drop s h j2)⟩

/-- C7 witness: a two-character string with a multi-byte second character
under a 2-byte budget. -/
theorem claim_C7_truncation_witness :
    byteLength (truncateToByteLength [97, 8364] ((2 : Nat) : Int)) ≤ 2 ∧
    utf8DecodeFull (utf8Encode (truncateToByteLength [97, 8364] ((2 : Nat) : Int))) =
      truncateToByteLength [97, 8364] ((2 : Nat) : Int) ∧
    byteLength (truncateStartToByteLength [97, 8364] ((2 : Nat) : Int)) ≤ 2 ∧
    utf8DecodeFull (utf8Encode (truncateStartToByteLength [97, 8364] ((2 : Nat) : Int))) =
      truncateStartToByteLength [97, 8364] ((2 : Nat) : Int) :=
  claim_C7_truncation [97, 8364] (by decide) 2

theorem byteLength_replicate (n c : Nat) :
    byteLength (List.replicate n c) = n * (utf8EncodeChar c).length := by
  induction n with
  | zero => simp [byteLength, utf8Encode]
  | succ n ih =>
    rw [List.replicate_succ]
    unfold byteLength at ih ⊢
    rw [utf8Encode_cons, List.length_append, ih]
    ring

theorem utf8Encode_replicate_ascii (n c : Nat) (h : c < 0x80) :
    utf8Encode (List.replicate n c) = List.replicate n c := by
  induction n with
  | zero => simp [utf8Encode]
  | succ n ih =>
    rw [List.replicate_succ, utf8Encode_cons, ih]
    unfold utf8EncodeChar
    rw [if_pos h]
    rfl

theorem validString_replicate (n c : Nat) (h : IsScalar c) :
    ValidString (List.replicate n c) := by
  intro x hx
  rw [List.eq_of_mem_replicate hx]
  exact h

/-- A string whole within the budget is returned unchanged. -/
theorem truncateToByteLength_of_le (s : List Nat) (n : Int) (h0 : 0 < n)
    (hle : (byteLength s : Int) ≤ n) : truncateToByteLength s n = s := by
  unfold truncateToByteLength
  rw [if_neg (by omega)]
  unfold byteLength at hle
  rw [if_pos hle]

/-- Shape of buildInfillContext when the split is over budget. -/
theorem buildInfillContext_over (fullText : List Nat) (offset : Nat)
    (maxInputBytes : Int) (otherFiles : List (String × List Nat))
    (hover : (byteLength (fullText.take offset) : Int) +
      byteLength (fullText.drop offset) > maxInputBytes) :
    buildInfillContext fullText offset maxInputBytes otherFiles =
      { inputPrefix :=
          if (byteLength (fullText.take offset) : Int) +
              byteLength (truncateToByteLength (fullText.drop offset)
                (max (MIN_SUFFIX_BYTES : Int)
                  (maxInputBytes - byteLength (fullText.take offset)))) >
              maxInputBytes then
            truncateStartToByteLength (fullText.take offset)
              (maxInputBytes -
                byteLength (truncateToByteLength (fullText.drop offset)
                  (max (MIN_SUFFIX_BYTES : Int)
                    (maxInputBytes - byteLength (fullText.take offset)))))
          else fullText.take offset
        inputSuffix :=
          truncateToByteLength (fullText.drop offset)
            (max (MIN_SUFFIX_BYTES : Int)
              (maxInputBytes - byteLength (fullText.take offset)))
        inputExtra :=
          buildInputExtra (maxInputBytes -
            byteLength (if (byteLength (fullText.take offset) : Int) +
                byteLength (truncateToByteLength (fullText.drop offset)
                  (max (MIN_SUFFIX_BYTES : Int)
                    (maxInputBytes - byteLength (fullText.take offset)))) >
                maxInputBytes then
              truncateStartToByteLength (fullText.take offset)
                (maxInputBytes -
                  byteLength (truncateToByteLength (fullText.drop offset)
                    (max (MIN_SUFFIX_BYTES : Int)
                      (maxInputBytes - byteLength (fullText.take offset)))))
            else fullText.take offset) -
            byteLength (truncateToByteLength (fullText.drop offset)
              (max (MIN_SUFFIX_BYTES : Int)
                (maxInputBytes - byteLength (fullText.take offset))))) otherFiles } := by
  unfold buildInfillContext
  have hd : decide ((byteLength (fullText.take offset) : Int) +
      byteLength (fullText.drop offset) > maxInputBytes) = true :=
    decide_eq_true hover
  simp only [hd, if_true, true_and]

/-- The 16384/20000/500 scenario of C6: the suffix is kept whole and the
prefix is truncated from the start to 16384 - 500 bytes. -/
theorem infill_scenario :
    buildInfillContext (List.replicate 20000 97 ++ List.replicate 500 98)
        20000 16384 [] =
      { inputPrefix := List.replicate 15884 97,
        inputSuffix := List.replicate 500 98,
        inputExtra := [] } := by
  have htake : (List.replicate 20000 (97 : Nat) ++ List.replicate 500 98).take 20000 =
      List.replicate 20000 97 := List.take_left' (by rw [List.length_replicate])
  have hdrop : (List.replicate 20000 (97 : Nat) ++ List.replicate 500 98).drop 20000 =
      List.replicate 500 98 := List.drop_left' (by rw [List.length_replicate])
  have hpb : byteLength (List.replicate 20000 (97 : Nat)) = 20000 := by
    rw [byteLength_replicate]
    norm_num [utf8EncodeChar]
  have hsb : byteLength (List.replicate 500 (98 : Nat)) = 500 := by
    rw [byteLength_replicate]
    norm_num [utf8EncodeChar]
  have hpfx : truncateStartToByteLength (List.replicate 20000 97)
      ((16384 : Int) - 500) = List.replicate 15884 97 := by
    unfold truncateStartToByteLength
    rw [if_neg (by norm_num),
      utf8Encode_replicate_ascii 20000 97 (by norm_num),
      if_neg (by rw [List.length_replicate]; norm_num),
      List.length_replicate]
    have hsnap : snapStart (List.replicate 20000 97)
        (20000 - ((16384 : Int) - 500).toNat) = 4116 := by
      have h4116 : 20000 - ((16384 : Int) - 500).toNat = 4116 := by omega
      rw [h4116]
      refine snapStart_stop _ _ (Or.inr ?_)
      have hg : (List.replicate 20000 (97 : Nat)).getD 4116 0 = 97 := by
        rw [List.getD_eq_getElem _ _ (by rw [List.length_replicate]; norm_num)]
        simp only [List.getElem_replicate]
      rw [hg]
      decide
    rw [hsnap, List.drop_replicate]
    have h2 : (20000 - 4116 : Nat) = 15884 := by omega
    rw [h2]
    conv_lhs => rw [← utf8Encode_replicate_ascii 15884 97 (by norm_num)]
    exact utf8DecodeFull_encode _ (validString_replicate 15884 97 (by decide))
  rw [buildInfillContext_over _ _ _ _
    (by rw [htake, hdrop, hpb, hsb]; norm_num)]
  rw [htake, hdrop, hpb]
  have hmax : max (MIN_SUFFIX_BYTES : Int) ((16384 : Int) - (20000 : Nat)) = 4096 := by
    unfold MIN_SUFFIX_BYTES
    norm_num
  rw [hmax]
  have hsfx : truncateToByteLength (List.replicate 500 98) (4096 : Int) =
      List.replicate 500 98 :=
    truncateToByteLength_of_le _ _ (by norm_num) (by rw [hsb]; norm_num)
  rw [hsfx, hsb]
  rw [if_pos (by norm_num)]
  have h15884 : (16384 : Int) - (500 : Nat) = (16384 : Int) - 500 := by norm_num
  rw [h15884, hpfx]
  have hbl : byteLength (List.replicate 15884 (97 : Nat)) = 15884 := by
    rw [byteLength_replicate]
    norm_num [utf8EncodeChar]
  rw [hbl]
  have hbudget : (16384 : Int) - (15884 : Nat) - (500 : Nat) = 0 := by norm_num
  rw [hbudget]
  rfl

/-- C6 (amended): when prefix+suffix exceed the budget, buildInfillContext
first truncates the suffix with target max(MIN_SUFFIX_BYTES, maxBytes -
prefixBytes), and only if still over budget truncates the prefix from its
head to the remaining budget; the suffix budget never drops below the
4096-byte floor, so after character-boundary snapping the suffix keeps at
least 4093 bytes whenever it had at least 4096; and in the concrete
scenario (budget 16384, 20000-byte prefix, 500-byte suffix) the suffix is
returned whole and the prefix truncated from the start to 15884 bytes. -/
theorem claim_C6_suffix_first (fullText : List Nat) (offset : Nat)
    (maxInputBytes : Int) (otherFiles : List (String × List Nat))
    (hvalid : ValidString fullText)
    (hover : (byteLength (fullText.take offset) : Int) +
      byteLength (fullText.drop offset) > maxInputBytes) :
    ((buildInfillContext fullText offset maxInputBytes otherFiles).inputSuffix =
      truncateToByteLength (fullText.drop offset)
        (max (MIN_SUFFIX_BYTES : Int)
          (maxInputBytes - byteLength (fullText.take offset)))) ∧
    ((byteLength (fullText.take offset) : Int) +
        byteLength (buildInfillContext fullText offset maxInputBytes
          otherFiles).inputSuffix ≤ maxInputBytes →
      (buildInfillContext fullText offset maxInputBytes otherFiles).inputPrefix =
        fullText.take offset) ∧
    ((byteLength (fullText.take offset) : Int) +
        byteLength (buildInfillContext fullText offset maxInputBytes
          otherFiles).inputSuffix > maxInputBytes →
      (buildInfillContext fullText offset maxInputBytes otherFiles).inputPrefix =
        truncateStartToByteLength (fullText.take offset)
          (maxInputBytes - byteLength (buildInfillContext fullText offset
            maxInputBytes otherFiles).inputSuffix)) ∧
    (4096 ≤ byteLength (fullText.drop offset) →
      4093 ≤ byteLength (buildInfillContext fullText offset maxInputBytes
        otherFiles).inputSuffix) ∧
    buildInfillContext (List.replicate 20000 97 ++ List.replicate 500 98)
        20000 16384 [] =
      { inputPrefix := List.replicate 15884 97,
        inputSuffix := List.replicate 500 98,
        inputExtra := [] } := by
  rw [buildInfillContext_over _ _ _ _ hover]
  dsimp only
  refine ⟨rfl, ?_, ?_, ?_, infill_scenario⟩
  · intro hle
    rw [if_neg (by omega)]
  · intro hgt
    rw [if_pos hgt]
  · intro hfl
    by_cases hfit : (byteLength (fullText.drop offset) : Int) ≤
        max (MIN_SUFFIX_BYTES : Int)
          (maxInputBytes - byteLength (fullText.take offset))
    · rw [truncateToByteLength_of_le _ _
        (lt_of_lt_of_le (by unfold MIN_SUFFIX_BYTES; norm_num)
          (le_max_left _ _)) hfit]
      exact le_trans (by norm_num) hfl
    · have hMge : (4096 : Int) ≤ max (MIN_SUFFIX_BYTES : Int)
          (maxInputBytes - byteLength (fullText.take offset)) := by
        refine le_trans (le_of_eq ?_) (le_max_left _ _)
        unfold MIN_SUFFIX_BYTES
        norm_num
      generalize hM : max (MIN_SUFFIX_BYTES : Int)
        (maxInputBytes - byteLength (fullText.take offset)) = M at hfit hMge ⊢
      have hMn : M = ((M.toNat : Nat) : Int) := by omega
      rw [hMn]
      obtain ⟨j, he, hb, hbnd⟩ := truncateToByteLength_spec (fullText.drop offset)
        (validString_drop _ hvalid _) M.toNat
      rw [he]
      have hstrict := hbnd (by omega)
      omega

/-- C6 witness: a 6-byte ASCII document split at offset 3 under a 4-byte
budget. -/
theorem claim_C6_suffix_first_witness :
    (buildInfillContext [97, 97, 97, 97, 97, 97] 3 4 []).inputSuffix =
      truncateToByteLength ([97, 97, 97, 97, 97, 97].drop 3)
        (max (MIN_SUFFIX_BYTES : Int)
          (4 - byteLength ([97, 97, 97, 97, 97, 97].take 3))) :=
  (claim_C6_suffix_first [97, 97, 97, 97, 97, 97] 3 4 [] (by decide)
    (by decide)).1

/-- C6 counterexample: a document that is all suffix (cursor at offset 0)
made of 1366 three-byte characters (4098 bytes) under budget 4096: the
truncation target is the 4096-byte floor, but boundary snapping cuts the
suffix to 4095 bytes — strictly below the floor the claim promises. -/
theorem claim_C6_counterexample :
    4096 ≤ byteLength (List.replicate 1366 8364) ∧
    byteLength ((buildInfillContext (List.replicate 1366 8364) 0
      (4096 : Int) []).inputSuffix) = 4095 := by
  have hval : ValidString (List.replicate 1366 8364) :=
    validString_replicate _ _ (by decide)
  have hech : (utf8EncodeChar 8364).length = 3 := by decide
  have hsb : byteLength (List.replicate 1366 (8364 : Nat)) = 4098 := by
    rw [byteLength_replicate, hech]
  refine ⟨by omega, ?_⟩
  have htake0 : (List.replicate 1366 (8364 : Nat)).take 0 = [] := rfl
  have hdrop0 : (List.replicate 1366 (8364 : Nat)).drop 0 =
      List.replicate 1366 8364 := rfl
  have hbl0 : byteLength ([] : List Nat) = 0 := rfl
  rw [buildInfillContext_over _ _ _ _
    (by rw [htake0, hdrop0, hsb, hbl0]; norm_num)]
  dsimp only
  rw [htake0, hdrop0, hbl0]
  have hmax : max ((MIN_SUFFIX_BYTES : Nat) : Int) ((4096 : Int) - ((0 : Nat) : Int)) =
      ((4096 : Nat) : Int) := by
    unfold MIN_SUFFIX_BYTES
    norm_num
  rw [hmax]
  obtain ⟨j, he, hb, hbnd⟩ :=
    truncateToByteLength_spec (List.replicate 1366 8364) hval 4096
  rw [he]
  have hstrict := hbnd (by omega)
  have htj : byteLength ((List.replicate 1366 (8364 : Nat)).take j) =
      3 * min j 1366 := by
    rw [List.take_replicate, byteLength_replicate, hech]
    ring
  rw [htj] at hb hstrict ⊢
  omega

theorem accListGet_cons (k : Nat) (v : StreamToolCallDeltaAccumulator)
    (rest : List (Nat × StreamToolCallDeltaAccumulator)) (i : Nat) :
    accListGet ((k, v) :: rest) i = if k = i then some v else accListGet rest i := by
  unfold accListGet
  by_cases h : k = i
  · rw [List.find?_cons_of_pos _ (by simpa using h)]
    simp [h]
  · rw [List.find?_cons_of_neg _ (by simpa using h)]
    simp [h]

theorem accListGet_set (accs : List (Nat × StreamToolCallDeltaAccumulator))
    (i : Nat) (a : StreamToolCallDeltaAccumulator) (j : Nat) :
    accListGet (accListSet accs i a) j =
      if i = j then some a else accListGet accs j := by
  induction accs with
  | nil =>
    unfold accListSet
    rw [accListGet_cons]
  | cons kv rest ih =>
    obtain ⟨k, v⟩ := kv
    unfold accListSet
    by_cases hk : k = i
    · rw [if_pos (by simpa using hk), accListGet_cons, accListGet_cons]
      by_cases hj : i = j
      · rw [if_pos hj, if_pos hj]
      · rw [if_neg hj, if_neg hj, if_neg (by omega)]
    · rw [if_neg (by simpa using hk), accListGet_cons, accListGet_cons]
      by_cases hkj : k = j
      · have : ¬(i = j) := by omega
        rw [if_pos hkj, if_pos hkj, if_neg this]
      · rw [if_neg hkj, if_neg hkj, ih]

theorem accListGet_append_single (accs : List (Nat × StreamToolCallDeltaAccumulator))
    (k : Nat) (a : StreamToolCallDeltaAccumulator) (j : Nat)
    (h : accListGet accs j = none) :
    accListGet (accs ++ [(k, a)]) j = if k = j then some a else none := by
  induction accs with
  | nil =>
    rw [List.nil_append, accListGet_cons]
    rfl
  | cons kv rest ih =>
    obtain ⟨k2, v2⟩ := kv
    rw [accListGet_cons] at h
    rw [List.cons_append, accListGet_cons]
    by_cases hk2 : k2 = j
    · rw [if_pos hk2] at h
      cases h
    · rw [if_neg hk2] at h
      rw [if_neg hk2, ih h]

theorem accKeys_set (accs : List (Nat × StreamToolCallDeltaAccumulator))
    (i : Nat) (a : StreamToolCallDeltaAccumulator) (h : i ∈ accKeys accs) :
    accKeys (accListSet accs i a) = accKeys accs := by
  induction accs with
  | nil => simp [accKeys] at h
  | cons kv rest ih =>
    obtain ⟨k, v⟩ := kv
    unfold accListSet
    by_cases hk : k = i
    · rw [if_pos (by simpa using hk)]
      simp [accKeys, hk]
    · rw [if_neg (by simpa using hk)]
      have hmem : i ∈ accKeys rest := by
        simp [accKeys] at h ⊢
        rcases h with h | h
        · omega
        · exact h
      simp only [accKeys, List.map_cons] at ih ⊢
      rw [ih hmem]

theorem accListGet_eq_none_iff (accs : List (Nat × StreamToolCallDeltaAccumulator))
    (i : Nat) : accListGet accs i = none ↔ i ∉ accKeys accs := by
  induction accs with
  | nil => simp [accListGet, accKeys]
  | cons kv rest ih =>
    obtain ⟨k, v⟩ := kv
    rw [accListGet_cons]
    by_cases hk : k = i
    · simp [hk, accKeys]
    · simp [hk, accKeys, ih]
      omega

theorem stringJoin_append (l1 l2 : List String) :
    String.join (l1 ++ l2) = String.join l1 ++ String.join l2 := by
  have hmk : ∀ a b : String, a ++ b = ⟨a.data ++ b.data⟩ := fun a b => rfl
  rw [String.join_eq, String.join_eq, String.join_eq, hmk]
  simp [List.map_append, List.flatten_append]

/-- The per-delta update concatenates the incoming fragment onto the
accumulated arguments string (never replaces it). -/
theorem argsOf_applyDeltaToAcc (a : StreamToolCallDeltaAccumulator)
    (d : ToolCallDelta) :
    ((applyDeltaToAcc a d).function.bind fun f => f.arguments) =
      combineOpt (a.function.bind fun f => f.arguments) (fragOf d) := by
  unfold applyDeltaToAcc fragOf
  cases hf : d.function with
  | none =>
    cases d.id <;> cases d.type <;> simp [combineOpt]
  | some fd =>
    cases hfa : fd.arguments with
    | none =>
      cases d.id <;> cases d.type <;> cases haf : a.function <;>
        simp [applyFunctionDelta, emptyFunctionAcc, hfa, haf, combineOpt]
    | some frag =>
      cases d.id <;> cases d.type <;> cases haf : a.function <;>
        simp [applyFunctionDelta, emptyFunctionAcc, hfa, haf, combineOpt,
          String.join]

theorem combineOpt_append (o : Option String) (fs gs : List String) :
    combineOpt (combineOpt o fs) gs = combineOpt o (fs ++ gs) := by
  unfold combineOpt
  cases fs with
  | nil => simp
  | cons f fs2 =>
    cases gs with
    | nil => simp
    | cons g gs2 =>
      simp only [List.isEmpty_cons, Bool.false_eq_true, if_false,
        List.cons_append, Option.getD_some, Option.some.injEq]
      rw [show f :: (fs2 ++ g :: gs2) = (f :: fs2) ++ (g :: gs2) from rfl,
        stringJoin_append, String.append_assoc]

theorem accArgsAt_applyToolCallDelta
    (accs : List (Nat × StreamToolCallDeltaAccumulator)) (d : ToolCallDelta)
    (i : Nat) :
    accArgsAt (applyToolCallDelta accs d) i =
      if d.index = i then combineOpt (accArgsAt accs i) (fragOf d)
      else accArgsAt accs i := by
  unfold applyToolCallDelta accArgsAt
  by_cases hnew : (accListGet accs d.index).isNone
  · rw [if_pos hnew]
    have hg0 : accListGet accs d.index = none := by
      cases h : accListGet accs d.index
      · rfl
      · rw [h] at hnew
        simp at hnew
    rw [accListGet_set]
    by_cases hi : d.index = i
    · rw [if_pos hi, if_pos hi,
        accListGet_append_single _ _ _ _ hg0, if_pos rfl]
      simp only [Option.getD_some, Option.some_bind]
      rw [argsOf_applyDeltaToAcc, ← hi, hg0]
      simp [emptyAcc]
    · rw [if_neg hi, if_neg hi]
      by_cases hji : accListGet accs i = none
      · rw [hji, accListGet_append_single _ _ _ _ hji, if_neg hi]
      · cases h : accListGet accs i with
        | none => exact absurd h hji
        | some w =>
          have : accListGet (accs ++ [(d.index, emptyAcc)]) i = some w := by
            unfold accListGet at h ⊢
            rw [List.find?_append]
            cases hfind : List.find? (fun kv => kv.1 == i) accs with
            | none =>
              rw [hfind] at h
              simp at h
            | some kv =>
              rw [hfind] at h
              simp at h ⊢
              exact h
          rw [this]
  · rw [if_neg hnew]
    have hg0 : ∃ w, accListGet accs d.index = some w := by
      cases h : accListGet accs d.index
      · rw [h] at hnew
        simp at hnew
      · exact ⟨_, rfl⟩
    obtain ⟨w, hw⟩ := hg0
    rw [accListGet_set]
    by_cases hi : d.index = i
    · rw [if_pos hi, if_pos hi, hw]
      simp only [Option.getD_some, Option.some_bind]
      rw [argsOf_applyDeltaToAcc, ← hi, hw]
      simp
    · rw [if_neg hi, if_neg hi]

/-- Fragments addressed to one index concatenate across a whole delta
sequence, in arrival order. -/
theorem accArgsAt_foldl (ds : List ToolCallDelta)
    (accs : List (Nat × StreamToolCallDeltaAccumulator)) (i : Nat) :
    accArgsAt (ds.foldl applyToolCallDelta accs) i =
      combineOpt (accArgsAt accs i) (argFragments i ds) := by
  induction ds generalizing accs with
  | nil => simp [argFragments, combineOpt]
  | cons d ds ih =>
    rw [List.foldl_cons, ih, accArgsAt_applyToolCallDelta]
    have hfr : argFragments i (d :: ds) =
        (if d.index = i then fragOf d else []) ++ argFragments i ds := by
      unfold argFragments
      rw [List.flatMap_cons]
    by_cases hd : d.index = i
    · rw [if_pos hd, combineOpt_append, hfr, if_pos hd]
    · rw [if_neg hd, hfr, if_neg hd, List.nil_append]

theorem accKeys_applyToolCallDelta
    (accs : List (Nat × StreamToolCallDeltaAccumulator)) (d : ToolCallDelta) :
    accKeys (applyToolCallDelta accs d) =
      if d.index ∈ accKeys accs then accKeys accs
      else accKeys accs ++ [d.index] := by
  unfold applyToolCallDelta
  by_cases hnew : (accListGet accs d.index).isNone
  · have hmem : d.index ∉ accKeys accs := by
      rw [← accListGet_eq_none_iff]
      cases h : accListGet accs d.index
      · rfl
      · rw [h] at hnew
        simp at hnew
    rw [if_pos hnew, if_neg hmem]
    have hin : d.index ∈ accKeys (accs ++ [(d.index, emptyAcc)]) := by
      simp [accKeys]
    rw [accKeys_set _ _ _ hin]
    simp [accKeys]
  · have hmem : d.index ∈ accKeys accs := by
      by_contra hc
      rw [← accListGet_eq_none_iff] at hc
      rw [hc] at hnew
      simp at hnew
    rw [if_neg hnew, if_pos hmem, accKeys_set _ _ _ hmem]

/-- The accumulator map keys are exactly the indices in first-delta
(insertion) order. -/
theorem accKeys_foldl (ds : List ToolCallDelta)
    (accs : List (Nat × StreamToolCallDeltaAccumulator)) :
    accKeys (ds.foldl applyToolCallDelta accs) =
      (ds.map (·.index)).foldl
        (fun ks i => if i ∈ ks then ks else ks ++ [i]) (accKeys accs) := by
  induction ds generalizing accs with
  | nil => rfl
  | cons d ds ih =>
    rw [List.foldl_cons, List.map_cons, List.foldl_cons, ih,
      accKeys_applyToolCallDelta]

theorem insertionOrder_fold_nodup (l : List Nat) (ks : List Nat)
    (h : ks.Nodup) :
    (l.foldl (fun ks i => if i ∈ ks then ks else ks ++ [i]) ks).Nodup := by
  induction l generalizing ks with
  | nil => exact h
  | cons x xs ih =>
    rw [List.foldl_cons]
    by_cases hx : x ∈ ks
    · rw [if_pos hx]
      exact ih ks h
    · rw [if_neg hx]
      refine ih _ ?_
      rw [List.nodup_append]
      refine ⟨h, List.nodup_singleton x, ?_⟩
      intro a ha hax
      rw [List.mem_singleton] at hax
      exact hx (hax ▸ ha)

/-- Once the stream is finished (stop), later lines are never processed. -/
theorem processLine_finished {J : Type} (parseChunk : List Nat → Option ChunkData)
    (parseJson : String → Option J)
    (accs : List (Nat × StreamToolCallDeltaAccumulator)) (line : List Nat) :
    processLine parseChunk parseJson ⟨accs, true⟩ line = (⟨accs, true⟩, []) := by
  unfold processLine
  rw [if_pos rfl]

/-- Text and thinking events of one delta are never tool-call events. -/
theorem text_think_not_toolCall {J : Type} (delta : ChunkDelta)
    (ev : StreamEvent J)
    (h : ev ∈ deltaTextEvents delta ++ deltaThinkingEvents delta) :
    isToolCallEvent ev = false := by
  rcases List.mem_append.mp h with h | h
  · unfold deltaTextEvents at h
    cases hc : delta.content with
    | none =>
      rw [hc] at h
      simp at h
    | some c =>
      rw [hc] at h
      dsimp only at h
      by_cases hce : c = ""
      · rw [if_pos hce] at h
        simp at h
      · rw [if_neg hce] at h
        rw [List.mem_singleton] at h
        rw [h]
        rfl
  · unfold deltaThinkingEvents at h
    cases hc : delta.reasoning_content with
    | none =>
      rw [hc] at h
      simp at h
    | some c =>
      rw [hc] at h
      dsimp only at h
      by_cases hce : c = ""
      · rw [if_pos hce] at h
        simp at h
      · rw [if_neg hce] at h
        rw [List.mem_singleton] at h
        rw [h]
        rfl

/-- No tool-call event is ever emitted by a line that is not a finishing
chunk. -/
theorem processLine_no_premature {J : Type}
    (parseChunk : List Nat → Option ChunkData) (parseJson : String → Option J)
    (st : CoreState) (line : List Nat)
    (hnf : ¬ lineIsFinish parseChunk line) :
    ∀ ev ∈ (processLine parseChunk parseJson st line).2,
      isToolCallEvent ev = false := by
  intro ev hev
  unfold processLine at hev
  by_cases h1 : st.finished = true
  · rw [if_pos h1] at hev
    simp at hev
  · rw [if_neg h1] at hev
    by_cases h2 : (strCodes "data: ").isPrefixOf line = true
    · rw [if_pos h2] at hev
      by_cases h3 : trimCodes (line.drop 6) = [] ∨
          trimCodes (line.drop 6) = strCodes "[DONE]"
      · rw [if_pos h3] at hev
        simp at hev
      · rw [if_neg h3] at hev
        cases hpc : parseChunk (line.drop 6) with
        | none =>
          rw [hpc] at hev
          simp at hev
        | some chunk =>
          rw [hpc] at hev
          dsimp only at hev
          cases hcl : chunk.choices with
          | nil =>
            rw [hcl] at hev
            simp at hev
          | cons choice tl =>
            rw [hcl] at hev
            dsimp only at hev
            cases hd : choice.delta with
            | none =>
              rw [hd] at hev
              simp at hev
            | some delta =>
              rw [hd] at hev
              dsimp only at hev
              by_cases hfin : choice.finish_reason = some "tool_calls" ∨
                  choice.finish_reason = some "stop"
              · exact absurd ⟨chunk, choice, delta, hpc,
                  by rw [hcl]; rfl, hd, hfin⟩ hnf
              · rw [if_neg hfin] at hev
                exact text_think_not_toolCall delta ev hev
    · rw [if_neg h2] at hev
      simp at hev

/-- The exact behaviour of a finishing line: the text and thinking events
come first, then the flush of the updated accumulators, the accumulator
map is cleared, and the stream terminates exactly when the reason is
stop. -/
theorem processLine_finish {J : Type}
    (parseChunk : List Nat → Option ChunkData) (parseJson : String → Option J)
    (accs : List (Nat × StreamToolCallDeltaAccumulator)) (line : List Nat)
    (chunk : ChunkData) (choice : ChunkChoice) (delta : ChunkDelta)
    (hdata : (strCodes "data: ").isPrefixOf line = true)
    (htrim : ¬(trimCodes (line.drop 6) = [] ∨
      trimCodes (line.drop 6) = strCodes "[DONE]"))
    (hpc : parseChunk (line.drop 6) = some chunk)
    (hch : chunk.choices.head? = some choice)
    (hd : choice.delta = some delta)
    (hfin : choice.finish_reason = some "tool_calls" ∨
      choice.finish_reason = some "stop") :
    processLine parseChunk parseJson ⟨accs, false⟩ line =
      (⟨[], decide (choice.finish_reason = some "stop")⟩,
       deltaTextEvents delta ++ deltaThinkingEvents delta ++
         flushAccs parseJson (deltaAccUpdate accs delta)) := by
  obtain ⟨tl, hcl⟩ : ∃ tl, chunk.choices = choice :: tl := by
    cases hc : chunk.choices with
    | nil =>
      rw [hc] at hch
      simp at hch
    | cons a b =>
      rw [hc] at hch
      simp at hch
      exact ⟨b, by rw [hch]⟩
  unfold processLine
  rw [if_neg (by simp), if_pos hdata, if_neg htrim, hpc]
  dsimp only
  rw [hcl]
  dsimp only
  rw [hd]
  dsimp only
  rw [if_pos hfin]

/-- C2: tool-call deltas sharing a stream index accumulate into one map
entry whose arguments string is the concatenation of its argument
fragments in arrival order; the map keys are the stream indices in
first-arrival (insertion) order, without duplicates; a line that is not
a finishing chunk never emits a toolCall event; at a finishing chunk the
text and thinking events come first, then the accumulators (updated with
the chunk's own deltas) are flushed in map order — each entry with
non-empty id, name and arguments whose arguments parse as JSON becomes
one toolCall event and every other entry is dropped — the accumulator
map is cleared, and the stream terminates exactly when the finish reason
is stop; a terminated stream processes no further lines. -/
theorem claim_C2_tool_call_accumulation {J : Type}
    (parseChunk : List Nat → Option ChunkData)
    (parseJson : String → Option J) :
    (∀ ds i, accArgsAt (accRun ds) i =
      if (argFragments i ds).isEmpty then none
      else some (String.join (argFragments i ds))) ∧
    (∀ ds, accKeys (accRun ds) = insertionOrder (ds.map (fun d => d.index)) ∧
      (accKeys (accRun ds)).Nodup) ∧
    (∀ st line, ¬ lineIsFinish parseChunk line →
      ∀ ev ∈ (processLine parseChunk parseJson st line).2,
        isToolCallEvent ev = false) ∧
    (∀ accs line chunk choice delta,
      (strCodes "data: ").isPrefixOf line = true →
      ¬(trimCodes (line.drop 6) = [] ∨
        trimCodes (line.drop 6) = strCodes "[DONE]") →
      parseChunk (line.drop 6) = some chunk →
      chunk.choices.head? = some choice →
      choice.delta = some delta →
      (choice.finish_reason = some "tool_calls" ∨
        choice.finish_reason = some "stop") →
      processLine parseChunk parseJson ⟨accs, false⟩ line =
        (⟨[], decide (choice.finish_reason = some "stop")⟩,
         deltaTextEvents delta ++ deltaThinkingEvents delta ++
           flushAccs parseJson (deltaAccUpdate accs delta))) ∧
    (∀ accs line,
      processLine parseChunk parseJson ⟨accs, true⟩ line = (⟨accs, true⟩, [])) := by
  refine ⟨?_, ?_, ?_, ?_, ?_⟩
  · intro ds i
    have h := accArgsAt_foldl ds [] i
    have h0 : accArgsAt ([] : List (Nat × StreamToolCallDeltaAccumulator)) i =
        none := rfl
    unfold accRun
    rw [h, h0]
    unfold combineOpt
    by_cases he : (argFragments i ds).isEmpty
    · rw [if_pos he, if_pos he]
    · rw [if_neg he, if_neg he]
      simp only [Option.getD_none]
      have hje : ("" : String) ++ String.join (argFragments i ds) =
          String.join (argFragments i ds) := rfl
      rw [hje]
  · intro ds
    constructor
    · unfold accRun
      rw [accKeys_foldl]
      rfl
    · unfold accRun
      rw [accKeys_foldl]
      exact insertionOrder_fold_nodup _ _ (by simp [accKeys])
  · intro st line hnf
    exact processLine_no_premature parseChunk parseJson st line hnf
  · intro accs line chunk choice delta h1 h2 h3 h4 h5 h6
    exact processLine_finish parseChunk parseJson accs line chunk choice delta
      h1 h2 h3 h4 h5 h6
  · intro accs line
    exact processLine_finished parseChunk parseJson accs line

/-- The C2 scenario at concrete inputs: after one tool-call delta has
been accumulated, a finishing line flushes it as the sole toolCall event
and terminates the stream with the accumulator map cleared. -/
theorem claim_C2_tool_call_accumulation_witness :
    processLine c2ParseChunk c2ParseJson ⟨accRun [c2Delta1], false⟩
        (strCodes "data: x") =
      (⟨[], true⟩, [StreamEvent.toolCall "a" "f" "OBJ"]) := by
  have h := (claim_C2_tool_call_accumulation c2ParseChunk c2ParseJson).2.2.2.1
    (accRun [c2Delta1]) (strCodes "data: x") c2FinChunk c2FinChoice c2FinDelta
    (by decide) (by decide) (by rfl) (by rfl) (by rfl) (by right; rfl)
  rw [h]
  rfl

theorem stEquiv_symm (s1 s2 : SSEState) (h : stEquiv s1 s2) : stEquiv s2 s1 := by
  rcases h with h | ⟨h1, h2⟩
  · exact Or.inl h.symm
  · exact Or.inr ⟨h2, h1⟩

theorem stEquiv_trans (s1 s2 s3 : SSEState) (h12 : stEquiv s1 s2)
    (h23 : stEquiv s2 s3) : stEquiv s1 s3 := by
  rcases h12 with h12 | ⟨ha, hb⟩
  · rw [h12]; exact h23
  · rcases h23 with h23 | ⟨hc, hd⟩
    · exact Or.inr ⟨ha, h23 ▸ hb⟩
    · exact Or.inr ⟨ha, hd⟩

theorem splitStep_pair (ls : List (List Nat)) (r : List Nat) (c : Nat) :
    splitStep (ls, r) c = if c = 10 then (ls ++ [r], []) else (ls, r ++ [c]) := rfl

/-- Folding the line splitter from a non-empty accumulated line list just
prepends that list to the lines found. -/
theorem foldl_splitStep_shift (b : List Nat) :
    ∀ (ls : List (List Nat)) (r : List Nat),
    b.foldl splitStep (ls, r) =
      (ls ++ (b.foldl splitStep ([], r)).1, (b.foldl splitStep ([], r)).2) := by
  induction b with
  | nil =>
    intro ls r
    simp
  | cons c b ih =>
    intro ls r
    rw [List.foldl_cons, List.foldl_cons, splitStep_pair, splitStep_pair]
    by_cases hc : c = 10
    · rw [if_pos hc, if_pos hc, ih (ls ++ [r]) []]
      simp only [List.nil_append]
      rw [ih [r] []]
      simp [List.append_assoc]
    · rw [if_neg hc, if_neg hc, ih ls (r ++ [c])]

/-- Folding a newline-free text just extends the pending line. -/
theorem foldl_splitStep_no_nl (r : List Nat) :
    ∀ (buf : List Nat), (∀ c ∈ r, c ≠ 10) → ∀ (ls : List (List Nat)),
    r.foldl splitStep (ls, buf) = (ls, buf ++ r) := by
  induction r with
  | nil =>
    intro buf h ls
    simp
  | cons c r ih =>
    intro buf h ls
    rw [List.foldl_cons, splitStep_pair, if_neg (h c (by simp)),
      ih (buf ++ [c]) (fun x hx => h x (by simp [hx])) ls]
    simp

/-- A newline-free text splits into no complete line and itself as the
rest. -/
theorem splitLines_no_nl (r : List Nat) (h : ∀ c ∈ r, c ≠ 10) :
    splitLines r = ([], r) := by
  unfold splitLines
  rw [foldl_splitStep_no_nl r [] h []]
  simp

theorem foldl_splitStep_rest_no_nl (t : List Nat) :
    ∀ (ls : List (List Nat)) (buf : List Nat), (∀ c ∈ buf, c ≠ 10) →
    ∀ c ∈ (t.foldl splitStep (ls, buf)).2, c ≠ 10 := by
  induction t with
  | nil =>
    intro ls buf h
    simpa using h
  | cons a t ih =>
    intro ls buf h
    rw [List.foldl_cons, splitStep_pair]
    by_cases ha : a = 10
    · rw [if_pos ha]
      exact ih _ [] (by intro c hc; simp at hc)
    · rw [if_neg ha]
      refine ih _ (buf ++ [a]) ?_
      intro c hc
      rw [List.mem_append] at hc
      rcases hc with hc | hc
      · exact h c hc
      · rw [List.mem_singleton] at hc
        exact hc ▸ ha

/-- The rest left by the line splitter never contains a newline. -/
theorem splitLines_rest_no_nl (t : List Nat) : ∀ c ∈ (splitLines t).2, c ≠ 10 := by
  unfold splitLines
  exact foldl_splitStep_rest_no_nl t [] [] (by intro c hc; simp at hc)

theorem splitLines_append (X t2 : List Nat) :
    splitLines (X ++ t2) = t2.foldl splitStep (splitLines X) := by
  unfold splitLines
  rw [List.foldl_append]

/-- Splitting a concatenation: the lines of the first part, then the
lines obtained by re-splitting its rest glued to the second part. -/
theorem splitLines_glue (X t2 : List Nat) :
    splitLines (X ++ t2) =
      ((splitLines X).1 ++ (splitLines ((splitLines X).2 ++ t2)).1,
       (splitLines ((splitLines X).2 ++ t2)).2) := by
  have h2 : splitLines ((splitLines X).2 ++ t2) =
      t2.foldl splitStep ([], (splitLines X).2) := by
    rw [splitLines_append, splitLines_no_nl _ (splitLines_rest_no_nl X)]
  rw [h2]
  conv_lhs =>
    rw [splitLines_append,
      show splitLines X = ((splitLines X).1, (splitLines X).2) from rfl,
      foldl_splitStep_shift]

theorem processChunkBytes_finished {J : Type}
    (parseChunk : List Nat → Option ChunkData) (parseJson : String → Option J)
    (st : SSEState) (bytes : List Nat) (h : st.core.finished = true) :
    processChunkBytes parseChunk parseJson st bytes = (st, []) := by
  unfold processChunkBytes
  rw [if_pos h]

/-- The unfolded form of one read-loop iteration on a live stream. -/
theorem processChunkBytes_eq {J : Type}
    (parseChunk : List Nat → Option ChunkData) (parseJson : String → Option J)
    (st : SSEState) (bytes : List Nat) (h : st.core.finished = false) :
    processChunkBytes parseChunk parseJson st bytes =
      ({ dec := (decodeChunk st.dec bytes).1,
         buffer := (splitLines (st.buffer ++ (decodeChunk st.dec bytes).2)).2,
         core := (runFold (processLine parseChunk parseJson) st.core
           (splitLines (st.buffer ++ (decodeChunk st.dec bytes).2)).1).1 },
       (runFold (processLine parseChunk parseJson) st.core
         (splitLines (st.buffer ++ (decodeChunk st.dec bytes).2)).1).2) := by
  unfold processChunkBytes
  rw [if_neg (by simp [h])]

/-- Streaming decode distributes over byte concatenation. -/
theorem decodeChunk_append (st : DecState) (b1 b2 : List Nat) :
    decodeChunk st (b1 ++ b2) =
      ((decodeChunk (decodeChunk st b1).1 b2).1,
       (decodeChunk st b1).2 ++ (decodeChunk (decodeChunk st b1).1 b2).2) := by
  unfold decodeChunk
  exact runFold_append decodeStep st b1 b2

/-- A terminated core state absorbs any line sequence without output. -/
theorem runFold_processLine_stop {J : Type}
    (parseChunk : List Nat → Option ChunkData) (parseJson : String → Option J)
    (core : CoreState) (h : core.finished = true) (lines : List (List Nat)) :
    runFold (processLine parseChunk parseJson) core lines = (core, []) := by
  induction lines with
  | nil => rfl
  | cons l ls ih =>
    have hp : processLine parseChunk parseJson core l = (core, []) := by
      unfold processLine
      rw [if_pos h]
    simp only [runFold]
    rw [hp]
    dsimp only
    rw [ih]
    rfl

theorem processChunkBytes_nil {J : Type}
    (parseChunk : List Nat → Option ChunkData) (parseJson : String → Option J)
    (st : SSEState) (h : ∀ c ∈ st.buffer, c ≠ 10) :
    processChunkBytes parseChunk parseJson st [] = (st, []) := by
  by_cases hf : st.core.finished = true
  · exact processChunkBytes_finished parseChunk parseJson st [] hf
  · have hf' : st.core.finished = false := by
      revert hf
      cases st.core.finished <;> simp
    rw [processChunkBytes_eq parseChunk parseJson st [] hf']
    have hd : decodeChunk st.dec [] = (st.dec, []) := rfl
    rw [hd]
    dsimp only
    rw [List.append_nil, splitLines_no_nl st.buffer h]
    rfl

/-- The line buffer carried across reads never contains a newline. -/
theorem processChunkBytes_no_nl {J : Type}
    (parseChunk : List Nat → Option ChunkData) (parseJson : String → Option J)
    (st : SSEState) (bytes : List Nat) (h : ∀ c ∈ st.buffer, c ≠ 10) :
    ∀ c ∈ (processChunkBytes parseChunk parseJson st bytes).1.buffer, c ≠ 10 := by
  by_cases hf : st.core.finished = true
  · rw [processChunkBytes_finished parseChunk parseJson st bytes hf]
    exact h
  · have hf' : st.core.finished = false := by
      revert hf
      cases st.core.finished <;> simp
    rw [processChunkBytes_eq parseChunk parseJson st bytes hf']
    exact splitLines_rest_no_nl _

/-- Processing a byte concatenation in one read equals processing the two
halves in successive reads: the outputs concatenate and the final states
agree up to termination. -/
theorem processChunkBytes_split {J : Type}
    (parseChunk : List Nat → Option ChunkData) (parseJson : String → Option J)
    (st : SSEState) (b1 b2 : List Nat) :
    (processChunkBytes parseChunk parseJson st (b1 ++ b2)).2 =
      (processChunkBytes parseChunk parseJson st b1).2 ++
        (processChunkBytes parseChunk parseJson
          (processChunkBytes parseChunk parseJson st b1).1 b2).2 ∧
    stEquiv (processChunkBytes parseChunk parseJson st (b1 ++ b2)).1
      (processChunkBytes parseChunk parseJson
        (processChunkBytes parseChunk parseJson st b1).1 b2).1 := by
  by_cases hf : st.core.finished = true
  · rw [processChunkBytes_finished parseChunk parseJson st (b1 ++ b2) hf,
      processChunkBytes_finished parseChunk parseJson st b1 hf]
    dsimp only
    rw [processChunkBytes_finished parseChunk parseJson st b2 hf]
    exact ⟨rfl, Or.inl rfl⟩
  · have hf' : st.core.finished = false := by
      revert hf
      cases st.core.finished <;> simp
    rw [processChunkBytes_eq parseChunk parseJson st (b1 ++ b2) hf',
      processChunkBytes_eq parseChunk parseJson st b1 hf',
      decodeChunk_append st.dec b1 b2]
    dsimp only
    rw [show st.buffer ++ ((decodeChunk st.dec b1).2 ++
          (decodeChunk (decodeChunk st.dec b1).1 b2).2) =
        (st.buffer ++ (decodeChunk st.dec b1).2) ++
          (decodeChunk (decodeChunk st.dec b1).1 b2).2 from
        (List.append_assoc _ _ _).symm,
      splitLines_glue (st.buffer ++ (decodeChunk st.dec b1).2)
        (decodeChunk (decodeChunk st.dec b1).1 b2).2]
    dsimp only
    rw [runFold_append]
    dsimp only
    by_cases hc1 : (runFold (processLine parseChunk parseJson) st.core
        (splitLines (st.buffer ++ (decodeChunk st.dec b1).2)).1).1.finished = true
    · rw [processChunkBytes_finished parseChunk parseJson _ b2 hc1,
        runFold_processLine_stop parseChunk parseJson _ hc1]
      constructor
      · simp
      · exact Or.inr ⟨hc1, hc1⟩
    · have hc1' : (runFold (processLine parseChunk parseJson) st.core
          (splitLines (st.buffer ++ (decodeChunk st.dec b1).2)).1).1.finished =
          false := by
        revert hc1
        cases (runFold (processLine parseChunk parseJson) st.core
          (splitLines (st.buffer ++ (decodeChunk st.dec b1).2)).1).1.finished <;>
          simp
      rw [processChunkBytes_eq parseChunk parseJson _ b2 hc1']
      dsimp only
      exact ⟨rfl, Or.inl rfl⟩

/-- Equivalent states produce the same output on the next read and stay
equivalent. -/
theorem processChunkBytes_congr {J : Type}
    (parseChunk : List Nat → Option ChunkData) (parseJson : String → Option J)
    (s1 s2 : SSEState) (h : stEquiv s1 s2) (b : List Nat) :
    (processChunkBytes parseChunk parseJson s1 b).2 =
      (processChunkBytes parseChunk parseJson s2 b).2 ∧
    stEquiv (processChunkBytes parseChunk parseJson s1 b).1
      (processChunkBytes parseChunk parseJson s2 b).1 := by
  rcases h with h | ⟨h1, h2⟩
  · rw [h]
    exact ⟨rfl, Or.inl rfl⟩
  · rw [processChunkBytes_finished parseChunk parseJson s1 b h1,
      processChunkBytes_finished parseChunk parseJson s2 b h2]
    exact ⟨rfl, Or.inr ⟨h1, h2⟩⟩

/-- Reading a chunk sequence produces the same events as reading its whole
concatenation in one chunk. -/
theorem runFold_pcb_flatten {J : Type}
    (parseChunk : List Nat → Option ChunkData) (parseJson : String → Option J)
    (cs : List (List Nat)) :
    ∀ st : SSEState, (∀ c ∈ st.buffer, c ≠ 10) →
    (runFold (processChunkBytes parseChunk parseJson) st cs).2 =
      (processChunkBytes parseChunk parseJson st cs.flatten).2 ∧
    stEquiv (runFold (processChunkBytes parseChunk parseJson) st cs).1
      (processChunkBytes parseChunk parseJson st cs.flatten).1 := by
  induction cs with
  | nil =>
    intro st h
    rw [List.flatten_nil, processChunkBytes_nil parseChunk parseJson st h]
    exact ⟨rfl, Or.inl rfl⟩
  | cons c cs ih =>
    intro st h
    have hsplit := processChunkBytes_split parseChunk parseJson st c cs.flatten
    have hpres := processChunkBytes_no_nl parseChunk parseJson st c h
    have hih := ih (processChunkBytes parseChunk parseJson st c).1 hpres
    rw [List.flatten_cons]
    simp only [runFold]
    constructor
    · rw [hih.1, hsplit.1]
    · exact stEquiv_trans _ _ _ hih.2 (stEquiv_symm _ _ hsplit.2)

/-- C1: the events streamChatCompletion emits are a function of the
concatenated transport bytes only — two chunkings of the same byte
stream (including splits inside a multi-byte character or inside a JSON
line) yield the same event sequence. -/
theorem claim_C1_chunk_boundary_invariance {J : Type}
    (parseChunk : List Nat → Option ChunkData) (parseJson : String → Option J)
    (cs1 cs2 : List (List Nat)) (h : cs1.flatten = cs2.flatten) :
    streamChatCompletionEvents parseChunk parseJson cs1 =
      streamChatCompletionEvents parseChunk parseJson cs2 := by
  have h1 := (runFold_pcb_flatten parseChunk parseJson cs1 initSSEState
    (by intro c hc; simp [initSSEState] at hc)).1
  have h2 := (runFold_pcb_flatten parseChunk parseJson cs2 initSSEState
    (by intro c hc; simp [initSSEState] at hc)).1
  unfold streamChatCompletionEvents
  rw [h1, h2, h]

/-- The C1 scenario at concrete inputs: one read of two SSE lines versus
two reads split in the middle of the first line emit the same events. -/
theorem claim_C1_chunk_boundary_invariance_witness :
    streamChatCompletionEvents c1ParseChunk c2ParseJson
        [[100, 97, 116, 97, 58, 32, 121, 10, 100, 97, 116, 97, 58, 32, 120, 10]] =
      streamChatCompletionEvents c1ParseChunk c2ParseJson
        [[100, 97, 116, 97, 58, 32, 121], [10, 100, 97, 116, 97, 58, 32, 120, 10]] :=
  claim_C1_chunk_boundary_invariance c1ParseChunk c2ParseJson _ _ (by decide)

theorem turnStep_reported {J : Type} (rulesActive : Bool)
    (resolveRules : J → Except String (String × List String))
    (st : TurnState J) (ev : StreamEvent J) :
    (turnStep rulesActive resolveRules st ev).reported =
      st.reported ++ reportedOfEvent rulesActive ev := by
  cases ev with
  | text c => rfl
  | thinking c => simp [turnStep, reportedOfEvent]
  | toolCall callId name input =>
    unfold turnStep reportedOfEvent
    dsimp only
    by_cases hn : name = CURSOR_RULES_TOOL_NAME ∧ rulesActive = true
    · rw [if_pos hn]
      conv_rhs => rw [if_pos hn]
      rw [List.append_nil]
      cases hrr : resolveRules input with
      | ok fr =>
        dsimp only
        by_cases ht : st.currentThinkingTokens = ""
        · rw [if_pos ht]
        · rw [if_neg ht]
      | error msg =>
        dsimp only
        by_cases ht : st.currentThinkingTokens = ""
        · rw [if_pos ht]
        · rw [if_neg ht]
    · rw [if_neg hn]
      conv_rhs => rw [if_neg hn]
      dsimp only
      by_cases ht : st.currentThinkingTokens = ""
      · rw [if_pos ht]
      · rw [if_neg ht]

theorem turnStep_rules {J : Type} (rulesActive : Bool)
    (resolveRules : J → Except String (String × List String))
    (st : TurnState J) (ev : StreamEvent J) :
    (turnStep rulesActive resolveRules st ev).cursorRulesToolCalls =
      st.cursorRulesToolCalls ++ ruleRecordOfEvent rulesActive resolveRules ev := by
  cases ev with
  | text c => simp [turnStep, ruleRecordOfEvent]
  | thinking c => simp [turnStep, ruleRecordOfEvent]
  | toolCall callId name input =>
    unfold turnStep ruleRecordOfEvent
    dsimp only
    by_cases hn : name = CURSOR_RULES_TOOL_NAME ∧ rulesActive = true
    · rw [if_pos hn]
      conv_rhs => rw [if_pos hn]
      cases hrr : resolveRules input with
      | ok fr =>
        dsimp only
        by_cases ht : st.currentThinkingTokens = ""
        · rw [if_pos ht]
        · rw [if_neg ht]
      | error msg =>
        dsimp only
        by_cases ht : st.currentThinkingTokens = ""
        · rw [if_pos ht]
        · rw [if_neg ht]
    · rw [if_neg hn]
      conv_rhs => rw [if_neg hn]
      rw [List.append_nil]
      dsimp only
      by_cases ht : st.currentThinkingTokens = ""
      · rw [if_pos ht]
      · rw [if_neg ht]

theorem turnFold_reported {J : Type} (rulesActive : Bool)
    (resolveRules : J → Except String (String × List String))
    (events : List (StreamEvent J)) :
    ∀ st : TurnState J,
    (events.foldl (turnStep rulesActive resolveRules) st).reported =
      st.reported ++ streamReported rulesActive events := by
  induction events with
  | nil =>
    intro st
    simp [streamReported]
  | cons ev evs ih =>
    intro st
    rw [List.foldl_cons, ih, turnStep_reported]
    unfold streamReported
    rw [List.flatMap_cons, List.append_assoc]

theorem turnFold_rules {J : Type} (rulesActive : Bool)
    (resolveRules : J → Except String (String × List String))
    (events : List (StreamEvent J)) :
    ∀ st : TurnState J,
    (events.foldl (turnStep rulesActive resolveRules) st).cursorRulesToolCalls =
      st.cursorRulesToolCalls ++ collectRuleRecords rulesActive resolveRules events := by
  induction events with
  | nil =>
    intro st
    simp [collectRuleRecords]
  | cons ev evs ih =>
    intro st
    rw [List.foldl_cons, ih, turnStep_rules]
    unfold collectRuleRecords
    rw [List.flatMap_cons, List.append_assoc]

/-- With buffered rule calls, finishing the turn reports exactly the two
synthesized texts after the streamed parts and issues exactly one
follow-up whose tools exclude the rule tool. -/
theorem finishTurn_with_rules {J : Type} (messages : List (ChatMessage J))
    (optionTools : List ChatTool) (now : String) (st : TurnState J)
    (h : st.cursorRulesToolCalls.isEmpty = false) :
    (finishTurn messages optionTools now st).reported =
      st.reported ++
        [ReportedPart.text (buildAssistantMessageForRules
            (st.cursorRulesToolCalls.flatMap (fun r => r.ruleNames))),
         ReportedPart.text (buildUserMessageWithResults
            (st.cursorRulesToolCalls.map (fun r => r.result)))] ∧
    (finishTurn messages optionTools now st).followUp =
      some (buildUpdatedMessageHistory messages
              (buildAssistantMessageForRules
                (st.cursorRulesToolCalls.flatMap (fun r => r.ruleNames)))
              (buildUserMessageWithResults
                (st.cursorRulesToolCalls.map (fun r => r.result))),
            optionTools.filter (fun t => !(t.name == CURSOR_RULES_TOOL_NAME))) := by
  unfold finishTurn
  dsimp only
  simp only [h, Bool.false_eq_true, if_false]
  by_cases ht : st.currentThinkingTokens = ""
  · rw [if_pos ht]
    exact ⟨rfl, rfl⟩
  · rw [if_neg ht]
    exact ⟨rfl, rfl⟩

/-- When rules are active, nothing the streaming loop reports is a call
on the rule tool. -/
theorem streamReported_no_rule {J : Type} (events : List (StreamEvent J))
    (p : ReportedPart J) (hp : p ∈ streamReported true events) :
    ∀ callId input, p ≠ ReportedPart.toolCall callId CURSOR_RULES_TOOL_NAME input := by
  intro callId input heq
  unfold streamReported at hp
  rw [List.mem_flatMap] at hp
  obtain ⟨ev, _, hpe⟩ := hp
  cases ev with
  | text c =>
    unfold reportedOfEvent at hpe
    rw [List.mem_singleton] at hpe
    rw [heq] at hpe
    cases hpe
  | thinking c =>
    simp [reportedOfEvent] at hpe
  | toolCall cid n inp =>
    unfold reportedOfEvent at hpe
    dsimp only at hpe
    by_cases hn : n = CURSOR_RULES_TOOL_NAME ∧ (true : Bool) = true
    · rw [if_pos hn] at hpe
      simp at hpe
    · rw [if_neg hn] at hpe
      rw [List.mem_singleton, heq] at hpe
      cases hpe
      exact hn ⟨rfl, rfl⟩

/-- A rule-tool call in the stream leaves a buffered record. -/
theorem collectRuleRecords_ne_nil {J : Type}
    (resolveRules : J → Except String (String × List String))
    (events : List (StreamEvent J)) (ev : StreamEvent J) (hm : ev ∈ events)
    (hr : isRuleCall ev = true) :
    (collectRuleRecords true resolveRules events).isEmpty = false := by
  cases ev with
  | text c => simp [isRuleCall] at hr
  | thinking c => simp [isRuleCall] at hr
  | toolCall callId name input =>
    have hn : name = CURSOR_RULES_TOOL_NAME := by
      unfold isRuleCall at hr
      exact of_decide_eq_true hr
    have hmem : (match resolveRules input with
        | .ok fr => (⟨(callId, name, input), fr.1, fr.2⟩ : RuleCallRecord J)
        | .error msg => ⟨(callId, name, input), "Error: " ++ msg, []⟩) ∈
        collectRuleRecords true resolveRules events := by
      unfold collectRuleRecords
      rw [List.mem_flatMap]
      refine ⟨StreamEvent.toolCall callId name input, hm, ?_⟩
      unfold ruleRecordOfEvent
      dsimp only
      rw [if_pos ⟨hn, rfl⟩]
      exact List.mem_singleton.mpr rfl
    cases hc : collectRuleRecords true resolveRules events with
    | nil =>
      rw [hc] at hmem
      cases hmem
    | cons a l => rfl

/-- C4: with the rule tool active, whenever the stream contains at least
one call on the reserved rule tool, the orchestrator never reports a
rule-tool call to the caller; after the stream it reports exactly one
synthesized assistant text and one user text following the streamed
parts, appends both messages to the history, and issues exactly one
follow-up request whose tool list has the rule tool filtered out, so the
follow-up cannot invoke the rule tool again. -/
theorem claim_C4_rule_tool_interception {J : Type}
    (resolveRules : J → Except String (String × List String))
    (messages : List (ChatMessage J)) (optionTools : List ChatTool)
    (now : String) (tokens0 : List (String × String))
    (events : List (StreamEvent J))
    (hex : ∃ ev ∈ events, isRuleCall ev = true) :
    (∀ p ∈ (processTurn true resolveRules messages optionTools now tokens0
        events).reported,
      ∀ callId input,
        p ≠ ReportedPart.toolCall callId CURSOR_RULES_TOOL_NAME input) ∧
    (processTurn true resolveRules messages optionTools now tokens0
        events).reported =
      streamReported true events ++
        [ReportedPart.text (buildAssistantMessageForRules
            ((collectRuleRecords true resolveRules events).flatMap
              (fun r => r.ruleNames))),
         ReportedPart.text (buildUserMessageWithResults
            ((collectRuleRecords true resolveRules events).map
              (fun r => r.result)))] ∧
    (processTurn true resolveRules messages optionTools now tokens0
        events).followUp =
      some (buildUpdatedMessageHistory messages
              (buildAssistantMessageForRules
                ((collectRuleRecords true resolveRules events).flatMap
                  (fun r => r.ruleNames)))
              (buildUserMessageWithResults
                ((collectRuleRecords true resolveRules events).map
                  (fun r => r.result))),
            optionTools.filter (fun t => !(t.name == CURSOR_RULES_TOOL_NAME))) ∧
    (∀ fu ∈ (processTurn true resolveRules messages optionTools now tokens0
        events).followUp,
      ∀ t ∈ fu.2, t.name ≠ CURSOR_RULES_TOOL_NAME) := by
  obtain ⟨ev, hm, hr⟩ := hex
  have hne := collectRuleRecords_ne_nil resolveRules events ev hm hr
  unfold processTurn
  have hrep := turnFold_reported true resolveRules events
    { currentThinkingTokens := "", cursorRulesToolCalls := []
      store := tokens0, reported := [] }
  have hrul := turnFold_rules true resolveRules events
    { currentThinkingTokens := "", cursorRulesToolCalls := []
      store := tokens0, reported := [] }
  dsimp only at hrep hrul
  rw [List.nil_append] at hrep hrul
  have hfin := finishTurn_with_rules messages optionTools now
    (events.foldl (turnStep true resolveRules)
      { currentThinkingTokens := "", cursorRulesToolCalls := []
        store := tokens0, reported := [] })
    (by rw [hrul]; exact hne)
  rw [hrep, hrul] at hfin
  refine ⟨?_, hfin.1, hfin.2, ?_⟩
  · intro p hp callId input
    rw [hfin.1] at hp
    rw [List.mem_append] at hp
    rcases hp with hp | hp
    · exact streamReported_no_rule events p hp callId input
    · intro heq
      rw [heq] at hp
      rcases List.mem_cons.mp hp with h1 | h1
      · cases h1
      · rw [List.mem_singleton] at h1
        cases h1
  · intro fu hfu t ht heq
    rw [hfin.2] at hfu
    rw [Option.mem_def, Option.some_inj] at hfu
    rw [← hfu] at ht
    have := List.of_mem_filter ht
    rw [heq] at this
    simp [CURSOR_RULES_TOOL_NAME] at this

/-- The C4 scenario at concrete inputs: the rule call is intercepted, the
two synthesized texts are the only reported parts, and the single
follow-up carries the extended history and the tool list without the
rule tool. -/
theorem claim_C4_rule_tool_interception_witness :
    (processTurn true c4Resolve c4Messages c4Tools "0" [] c4Events).reported =
      [ReportedPart.text "Please tell me about rule style.md.",
       ReportedPart.text "RULE CONTENT"] ∧
    (processTurn true c4Resolve c4Messages c4Tools "0" [] c4Events).followUp =
      some (c4Messages ++
          [⟨Role.assistant, [ChatPart.text "Please tell me about rule style.md."]⟩,
           ⟨Role.user, [ChatPart.text "RULE CONTENT"]⟩],
        [⟨"search"⟩]) := by
  have h := claim_C4_rule_tool_interception c4Resolve c4Messages c4Tools "0" []
    c4Events ⟨StreamEvent.toolCall "call9" "get-project-rule" "style",
      by simp [c4Events], by rfl⟩
  constructor
  · rw [h.2.1]
    rfl
  · rw [h.2.2.1]
    rfl

end LlamaCopilot
